/-
Verification of the title-case transformation engine of `src/titlecases.py`
(bib_formatter).  The Python module is shallowly embedded: strings are lists
of characters, Python's ASCII casing primitives (`str.lower`,
`str.capitalize`, `str.isupper`, `str.isspace`) are modelled on the ASCII
range (characters outside ASCII are treated as uncased, matching the
module's "Latin-script ASCII-ish tokens" scope), and the regular expressions
of the source are translated to the equivalent explicit scans.
-/
import Mathlib

set_option maxHeartbeats 1000000

namespace TitleCases

/-- Strings are modelled as lists of characters. -/
abbrev Str := List Char

/-! ### ASCII character model -/

/-- ASCII upper-case letter (`A`-`Z`). -/
def isUpperCh (c : Char) : Bool := 65 ≤ c.toNat && c.toNat ≤ 90

/-- ASCII lower-case letter (`a`-`z`). -/
def isLowerCh (c : Char) : Bool := 97 ≤ c.toNat && c.toNat ≤ 122

/-- ASCII digit (`0`-`9`). -/
def isDigitCh (c : Char) : Bool := 48 ≤ c.toNat && c.toNat ≤ 57

/-- The character class `[A-Za-z0-9]` used throughout `titlecases.py`. -/
def isAlnumCh (c : Char) : Bool := isUpperCh c || isLowerCh c || isDigitCh c

/-- ASCII letter. -/
def isLetterCh (c : Char) : Bool := isUpperCh c || isLowerCh c

/-- Python whitespace (`\s` / `str.isspace`) restricted to ASCII:
space, `\t`, `\n`, `\v`, `\f`, `\r` and the file/group/record/unit
separators `\x1c`-`\x1f`. -/
def isSpaceCh (c : Char) : Bool :=
  c.toNat = 32 || (9 ≤ c.toNat && c.toNat ≤ 13) || (28 ≤ c.toNat && c.toNat ≤ 31)

/-- Python `str.lower` on a single ASCII character. -/
def toLowerCh (c : Char) : Char :=
  if isUpperCh c then Char.ofNat (c.toNat + 32) else c

/-- Python `str.upper` (and `str.title` on one character) on a single ASCII
character. -/
def toUpperCh (c : Char) : Char :=
  if isLowerCh c then Char.ofNat (c.toNat - 32) else c

/-! ### Python string primitives on `Str` -/

/-- Python `str.lower`. -/
def lowerStr (s : Str) : Str := s.map toLowerCh

/-- Python `str.capitalize`: first character upper-cased, the rest
lower-cased. -/
def capitalizeStr : Str → Str
  | [] => []
  | c :: cs => toUpperCh c :: lowerStr cs

/-- Python `str.isupper`: at least one cased character and every cased
character upper-case, i.e. some upper-case letter and no lower-case one. -/
def sIsUpper (s : Str) : Bool := s.any isUpperCh && !(s.any isLowerCh)

/-- Python `str.isspace`: non-empty and all whitespace. -/
def sIsSpace (s : Str) : Bool := !s.isEmpty && s.all isSpaceCh

/-- `re.search(r"[A-Za-z0-9]", s)` succeeds. -/
def hasAlnum (s : Str) : Bool := s.any isAlnumCh

/-- Truthiness of `s.strip()`: some non-whitespace character remains. -/
def hasNonSpace (s : Str) : Bool := s.any (fun c => !isSpaceCh c)

/-- `re.sub(r"[^A-Za-z0-9]", "", s)`. -/
def cleanStr (s : Str) : Str := s.filter isAlnumCh

/-- Python `str.rstrip`. -/
def rstripStr (s : Str) : Str := (s.reverse.dropWhile isSpaceCh).reverse

/-- `enumerate`-style map used for hyphen and slash parts. -/
def mapWithIndex (f : Nat → Str → Str) : Nat → List Str → List Str
  | _, [] => []
  | i, p :: ps => f i p :: mapWithIndex f (i + 1) ps

/-- Prepend a non-space character to the first (word) token of a split. -/
def consToFirst (c : Char) : List Str → List Str
  | [] => [[c]]
  | t :: ts => (c :: t) :: ts

/-- `_split_tokens_preserve_space`, i.e. `re.split(r"(\s+)", text)`: split on
maximal whitespace runs, keeping the runs as tokens.  Like the Python split,
the result alternates (possibly empty) non-space tokens with non-empty
whitespace runs, starting and ending with a non-space token. -/
def splitTokens : Str → List Str
  | [] => [[]]
  | c :: rest =>
    if isSpaceCh c then
      match splitTokens rest with
      | [] :: sp :: ts => [] :: (c :: sp) :: ts
      | other => [] :: [c] :: other
    else consToFirst c (splitTokens rest)

/-! ### The module's tables and styles -/

/-- `APA_STOPWORDS`. -/
def apaStopwords : List Str :=
  ["a", "an", "and", "as", "at", "but", "by", "for", "from", "in", "into", "nor",
   "of", "on", "onto", "or", "over", "per", "the", "to", "vs", "via", "with",
   "up", "down", "off"].map String.toList

/-- `_LOWERCASE_PREFIXES`: hyphen parts kept lower-case in non-forced
hyphenated words. -/
def lowercasePrefixTable : List Str :=
  ["e", "re", "pre", "non", "self", "co", "multi", "cross", "semi", "anti", "de",
   "un", "sub", "inter", "intra", "ex", "mid", "over", "under", "out", "post",
   "meta"].map String.toList

/-- `KNOWN_MIXED_CASE`. -/
def knownMixedCase : List Str :=
  ["iOS", "macOS", "iPhone", "iPad", "iPod", "eBay", "eBook", "pH", "mRNA",
   "tRNA", "rRNA", "dB", "MHz", "GHz", "kHz", "arXiv", "GitHub", "YouTube",
   "JavaScript", "TypeScript", "PyTorch", "TensorFlow", "ResNet", "ImageNet",
   "WordNet", "BibTeX", "LaTeX", "DeepLab", "OpenAI", "ChatGPT",
   "GPT"].map String.toList

/-- The `TitleCaseStyle` dataclass.  `subtitleDelimiters` models the
`Optional[Set[str]]` field. -/
structure TitleCaseStyle where
  name : Str
  stopwords : List Str
  minLengthCapitalize : Nat
  capitalizeLastWord : Bool
  hyphenCapitalizeAllParts : Bool
  subtitleDelimiters : Option (List Str)

/-- The `"apa"` entry of `STYLES`.  The Python literal set
`{":", "—", "–", "—"}` contains the em dash twice and so has the three
elements below. -/
def apaStyle : TitleCaseStyle where
  name := "apa".toList
  stopwords := apaStopwords
  minLengthCapitalize := 4
  capitalizeLastWord := false
  hyphenCapitalizeAllParts := true
  subtitleDelimiters := some ([":", "—", "–"].map String.toList)

/-- The `STYLES` registry. -/
def styleTable : List (Str × TitleCaseStyle) := [("apa".toList, apaStyle)]

/-- `get_style`: a falsy (absent or empty) name yields the default APA style;
otherwise the lower-cased name is looked up with default fallback. -/
def getStyle : Option Str → TitleCaseStyle
  | none => apaStyle
  | some n =>
    if n.isEmpty then apaStyle
    else
      match styleTable.find? (fun p => p.1 == lowerStr n) with
      | some p => p.2
      | none => apaStyle

/-! ### Word-level casing (`_titlecase_word` and helpers) -/

/-- `_has_internal_capitals`: some upper-case letter directly preceded by a
lower-case letter. -/
def hasInternalCapitals (w : Str) : Bool :=
  match w with
  | [] => false
  | _ :: t => (w.zip t).any (fun p => isLowerCh p.1 && isUpperCh p.2)

/-- `_get_known_mixed_case`: case-insensitive lookup of the canonical
spelling.  The Python code iterates a `set`; as the lower-cased table
entries are pairwise distinct, iteration order is irrelevant and a list
lookup is equivalent. -/
def getKnownMixedCase (w : Str) : Option Str :=
  knownMixedCase.find? (fun k => lowerStr k == lowerStr w)

/-- The body of the `for i, part in enumerate(parts)` loop of
`_titlecase_hyphenated`. -/
def casedHyphenPart (forceCap : Bool) (sw : List Str) (style : TitleCaseStyle)
    (i : Nat) (part : Str) : Str :=
  let lowerPart := lowerStr part
  let cleanPart := cleanStr part
  match getKnownMixedCase part with
  | some known => known
  | none =>
    if sIsUpper part && decide (part.length ≥ 2) then part
    else if hasInternalCapitals part then part
    else if i = 0 then
      let partMajor := forceCap || decide (cleanPart.length ≥ style.minLengthCapitalize)
        || !decide (lowerPart ∈ sw)
      if partMajor then capitalizeStr part else lowerPart
    else if decide (lowerPart ∈ lowercasePrefixTable) && !forceCap then lowerPart
    else
      let partMajor := style.hyphenCapitalizeAllParts
        || decide (cleanPart.length ≥ style.minLengthCapitalize)
        || !decide (lowerPart ∈ sw)
      if partMajor then capitalizeStr part else lowerPart

/-- `_titlecase_hyphenated`: case each `-`-separated part and re-join. -/
def titlecaseHyphenated (core : Str) (forceCap : Bool) (sw : List Str)
    (style : TitleCaseStyle) : Str :=
  List.intercalate ['-'] (mapWithIndex (casedHyphenPart forceCap sw style) 0 (core.splitOn '-'))

/-- The body of the slash-part loop in `_titlecase_word`. -/
def casedSlashPart (isMajor forceCap : Bool) (j : Nat) (sp : Str) : Str :=
  match getKnownMixedCase sp with
  | some known => known
  | none =>
    if sIsUpper sp && decide (sp.length ≥ 2) then sp
    else if hasInternalCapitals sp then sp
    else if isMajor || (decide (j = 0) && forceCap) then capitalizeStr sp
    else lowerStr sp

/-- The split `re.match(r"(^[^A-Za-z0-9]*)(.*?)([^A-Za-z0-9]*$)", word)` into
greedy non-alphanumeric prefix, minimal core and maximal non-alphanumeric
suffix.  On the whitespace-free tokens fed to `_titlecase_word` the regex
always matches and produces exactly this split. -/
def decomposeWord (w : Str) : Str × Str × Str :=
  let pfx := w.takeWhile (fun c => !isAlnumCh c)
  let rest := w.dropWhile (fun c => !isAlnumCh c)
  let core := (rest.reverse.dropWhile (fun c => !isAlnumCh c)).reverse
  let sfx := (rest.reverse.takeWhile (fun c => !isAlnumCh c)).reverse
  (pfx, core, sfx)

/-- `_titlecase_word`. -/
def titlecaseWord (w : Str) (forceCap : Bool) (sw : List Str)
    (style : TitleCaseStyle) : Str :=
  if w.isEmpty then w
  else
    let d := decomposeWord w
    let pfx := d.1
    let core := d.2.1
    let sfx := d.2.2
    if core.isEmpty then w
    else
      match getKnownMixedCase core with
      | some known => pfx ++ known ++ sfx
      | none =>
        let lowerCore := lowerStr core
        let cleanCore := cleanStr core
        let isMajor := forceCap || decide (cleanCore.length ≥ style.minLengthCapitalize)
          || !decide (lowerCore ∈ sw)
        if core.contains '/' then
          pfx ++ List.intercalate ['/']
            (mapWithIndex (casedSlashPart isMajor forceCap) 0 (core.splitOn '/')) ++ sfx
        else if core.contains '-' then
          pfx ++ titlecaseHyphenated core isMajor sw style ++ sfx
        else
          let casedCore :=
            if hasInternalCapitals core then core
            else if sIsUpper core && decide (core.length ≥ 2) then core
            else if isMajor then capitalizeStr core
            else lowerCore
          pfx ++ casedCore ++ sfx

/-! ### The brace scan and `suggest_title_case` -/

/-- One `\{.*?\}` match attempt after an opening brace: scan (lazily) to the
first `}`; fail at end of string or at `\n`, which the regex `.` does not
match.  Returns the span's interior and the remainder of the string. -/
def braceSpan : Str → Option (Str × Str)
  | [] => none
  | c :: rest =>
    if c = '}' then some ([], rest)
    else if c = '\n' then none
    else
      match braceSpan rest with
      | some (cont, r) => some (c :: cont, r)
      | none => none

/-- Prepend a literal character to a segment list, merging with a leading
text segment (the text between two regex matches forms a single segment). -/
def consTextSeg (c : Char) : List (Bool × Str) → List (Bool × Str)
  | (false, t) :: ps => (false, c :: t) :: ps
  | ps => (false, [c]) :: ps

/-- Fuelled scan equivalent to building the `parts` list of
`suggest_title_case` from `re.finditer(r"\{.*?\}", title)`: `(true, seg)` is
a braced (protected) segment including its braces, `(false, seg)` a maximal
plain-text segment.  The fuel (initially the string length) only serves
structural recursion. -/
def scanSegsF : Nat → Str → List (Bool × Str)
  | 0, _ => []
  | _ + 1, [] => []
  | fuel + 1, c :: rest =>
    if c = '{' then
      match braceSpan rest with
      | some (cont, r) => (true, '{' :: (cont ++ ['}'])) :: scanSegsF fuel r
      | none => consTextSeg c (scanSegsF fuel rest)
    else consTextSeg c (scanSegsF fuel rest)

/-- The `parts` segmentation of `suggest_title_case`. -/
def scanSegs (s : Str) : List (Bool × Str) := scanSegsF s.length s

/-- The tokens of one plain-text segment that enter `word_positions`: they
survive `t.strip()`, are not whitespace and contain an alphanumeric
character. -/
def segWords (seg : Str) : List Str :=
  ((splitTokens seg).filter (fun t => hasNonSpace t)).filter
    (fun t => !sIsSpace t && hasAlnum t)

/-- The `word_positions` flattening over all plain-text segments. -/
def wordPositions (parts : List (Bool × Str)) : List Str :=
  (parts.filterMap (fun p => if p.1 then none else some p.2)).flatMap segWords

/-- `is_first_or_last` of `suggest_title_case`. -/
def isFirstOrLast (style : TitleCaseStyle) (totalWords idx : Nat) : Bool :=
  if idx = 0 then true
  else if style.capitalizeLastWord && decide (idx = totalWords - 1) then true
  else false

/-- Python `s.endswith(d)`: `d` is a suffix of `s`. -/
def endsWith (s d : Str) : Bool :=
  decide (d.length ≤ s.length) && (s.drop (s.length - d.length) == d)

/-- `prev_token_nonspace.rstrip().endswith(tuple(style.subtitle_delimiters or []))`. -/
def endsWithDelim (style : TitleCaseStyle) (prev : Str) : Bool :=
  (style.subtitleDelimiters.getD []).any (fun d => endsWith (rstripStr prev) d)

/-- The mutable state of the rebuild loop: `word_counter` and
`prev_token_nonspace`. -/
structure RebuildSt where
  counter : Nat
  prev : Str

/-- One iteration of the token loop of `suggest_title_case`: whitespace and
empty tokens pass through without touching the state; other tokens are cased
with the force flag computed from the counter and the previous token. -/
def processToken (sw : List Str) (style : TitleCaseStyle) (totalWords : Nat)
    (st : RebuildSt) (tok : Str) : Str × RebuildSt :=
  if sIsSpace tok || tok.isEmpty then (tok, st)
  else
    let prevDelim := endsWithDelim style st.prev
    let forceCap := isFirstOrLast style totalWords st.counter || prevDelim
    (titlecaseWord tok forceCap sw style, ⟨st.counter + 1, tok⟩)

/-- The token loop over one plain-text segment. -/
def processTokenList (sw : List Str) (style : TitleCaseStyle) (totalWords : Nat) :
    RebuildSt → List Str → List Str × RebuildSt
  | st, [] => ([], st)
  | st, t :: ts =>
    let r := processToken sw style totalWords st t
    let rs := processTokenList sw style totalWords r.2 ts
    (r.1 :: rs.1, rs.2)

/-- The rebuild loop of `suggest_title_case` over the segment list: braced
segments are copied verbatim (and leave the state untouched), text segments
are re-tokenized, cased and joined. -/
def processSegs (sw : List Str) (style : TitleCaseStyle) (totalWords : Nat) :
    RebuildSt → List (Bool × Str) → Str
  | _, [] => []
  | st, (true, seg) :: ps => seg ++ processSegs sw style totalWords st ps
  | st, (false, seg) :: ps =>
    let r := processTokenList sw style totalWords st (splitTokens seg)
    r.1.flatten ++ processSegs sw style totalWords r.2 ps

/-- `suggest_title_case`.  `stopwords` models the optional argument; the
Python `stopwords or style.stopwords` makes an absent or empty set fall back
to the style's stopwords. -/
def suggestTitleCase (title : Str) (stopwords : Option (List Str))
    (styleName : Option Str) : Str :=
  let style := getStyle styleName
  let sw := match stopwords with
    | none => style.stopwords
    | some s => if s.isEmpty then style.stopwords else s
  let parts := scanSegs title
  let totalWords := (wordPositions parts).length
  processSegs sw style totalWords ⟨0, []⟩ parts

/-- `suggest_title_case` with its default arguments
(`stopwords=None`, `style_name="apa"`). -/
def suggestTitleCaseDefault (t : Str) : Str :=
  suggestTitleCase t none (some ("apa".toList))

/-! ### Auxiliary notions used only to state and prove properties -/

/-- The braced (protected) segments of a title, in reading order. -/
def bracedSegs (t : Str) : List Str :=
  (scanSegs t).filterMap (fun p => if p.1 then some p.2 else none)

/-- Interleave gap strings with given strings:
`interleaveStrs [g₀, g₁, ..., gₙ] [b₀, ..., bₙ₋₁] = g₀ ++ b₀ ++ g₁ ++ ... ++ bₙ₋₁ ++ gₙ`. -/
def interleaveStrs : List Str → List Str → Str
  | [], _ => []
  | g :: _, [] => g
  | g :: gs, b :: bs => g ++ b ++ interleaveStrs gs bs

/-- The list-level mirror of `processSegs`: the rebuilt segments before the
final concatenation. -/
def processSegsList (sw : List Str) (style : TitleCaseStyle) (tw : Nat) :
    RebuildSt → List (Bool × Str) → List (Bool × Str)
  | _, [] => []
  | st, (true, seg) :: ps => (true, seg) :: processSegsList sw style tw st ps
  | st, (false, seg) :: ps =>
    (false, (processTokenList sw style tw st (splitTokens seg)).1.flatten) ::
      processSegsList sw style tw (processTokenList sw style tw st (splitTokens seg)).2 ps

/-- Head condition of `altShape`: the next word slot must be non-empty unless
it is the final one. -/
def headOkay : List Str → Bool
  | [] => false
  | [_] => true
  | r :: _ :: _ => !r.isEmpty

/-- The shape of a token list produced by `splitTokens`: word tokens (without
whitespace) alternate with non-empty whitespace runs, beginning and ending
with a word token, and only the outermost word tokens may be empty. -/
def altShape : List Str → Bool
  | [] => false
  | [w] => w.all (fun c => !isSpaceCh c)
  | w :: sp :: rest =>
    w.all (fun c => !isSpaceCh c) && sIsSpace sp && headOkay rest && altShape rest

/-! ### Character-level lemmas -/

theorem charOfNat_toNat (n : Nat) (h : n.isValidChar) : (Char.ofNat n).toNat = n := by
  unfold Char.ofNat
  rw [dif_pos h]
  rfl

theorem char_eq_of_toNat_eq {c d : Char} (h : c.toNat = d.toNat) : c = d :=
  Char.ext (UInt32.ext h)

theorem toNat_toLowerCh (c : Char) :
    (toLowerCh c).toNat = if 65 ≤ c.toNat ∧ c.toNat ≤ 90 then c.toNat + 32 else c.toNat := by
  unfold toLowerCh isUpperCh
  by_cases h : 65 ≤ c.toNat ∧ c.toNat ≤ 90
  · have hv : (c.toNat + 32).isValidChar := Or.inl (by omega)
    simp [h.1, h.2, charOfNat_toNat _ hv]
  · rcases Nat.lt_or_ge c.toNat 65 with h1 | h1
    · simp [Nat.not_le.mpr h1, h]
    · have h2 : ¬ c.toNat ≤ 90 := fun hc => h ⟨h1, hc⟩
      simp [h1, h2, h]

theorem toNat_toUpperCh (c : Char) :
    (toUpperCh c).toNat = if 97 ≤ c.toNat ∧ c.toNat ≤ 122 then c.toNat - 32 else c.toNat := by
  unfold toUpperCh isLowerCh
  by_cases h : 97 ≤ c.toNat ∧ c.toNat ≤ 122
  · have hv : (c.toNat - 32).isValidChar := Or.inl (by omega)
    simp [h.1, h.2, charOfNat_toNat _ hv]
  · rcases Nat.lt_or_ge c.toNat 97 with h1 | h1
    · simp [Nat.not_le.mpr h1, h]
    · have h2 : ¬ c.toNat ≤ 122 := fun hc => h ⟨h1, hc⟩
      simp [h1, h2, h]

theorem isUpperCh_toLowerCh (c : Char) : isUpperCh (toLowerCh c) = false := by
  simp only [Bool.eq_false_iff, ne_eq, isUpperCh, Bool.and_eq_true, decide_eq_true_eq,
    toNat_toLowerCh]
  split_ifs <;> omega

theorem toLowerCh_of_not_upper {c : Char} (h : isUpperCh c = false) : toLowerCh c = c := by
  unfold toLowerCh
  simp [h]

theorem toLowerCh_toLowerCh (c : Char) : toLowerCh (toLowerCh c) = toLowerCh c :=
  toLowerCh_of_not_upper (isUpperCh_toLowerCh c)

theorem toLowerCh_toUpperCh (c : Char) : toLowerCh (toUpperCh c) = toLowerCh c := by
  apply char_eq_of_toNat_eq
  rw [toNat_toLowerCh (toUpperCh c), toNat_toUpperCh c, toNat_toLowerCh c]
  by_cases h : 97 ≤ c.toNat ∧ c.toNat ≤ 122
  · rw [if_pos h]
    have h1 : 65 ≤ c.toNat - 32 ∧ c.toNat - 32 ≤ 90 := by omega
    rw [if_pos h1]
    have h2 : ¬ (65 ≤ c.toNat ∧ c.toNat ≤ 90) := by omega
    rw [if_neg h2]
    omega
  · rw [if_neg h]

theorem isLowerCh_toLowerCh (c : Char) : isLowerCh (toLowerCh c) = isLetterCh c := by
  rw [Bool.eq_iff_iff]
  simp only [isLowerCh, isLetterCh, isUpperCh, Bool.and_eq_true, Bool.or_eq_true,
    decide_eq_true_eq, toNat_toLowerCh]
  split_ifs <;> omega

theorem isDigitCh_toLowerCh (c : Char) : isDigitCh (toLowerCh c) = isDigitCh c := by
  rw [Bool.eq_iff_iff]
  simp only [isDigitCh, Bool.and_eq_true, decide_eq_true_eq, toNat_toLowerCh]
  split_ifs <;> omega

theorem isAlnumCh_toLowerCh (c : Char) : isAlnumCh (toLowerCh c) = isAlnumCh c := by
  rw [Bool.eq_iff_iff]
  simp only [isAlnumCh, isUpperCh, isLowerCh, isDigitCh, Bool.and_eq_true, Bool.or_eq_true,
    decide_eq_true_eq, toNat_toLowerCh]
  split_ifs <;> omega

theorem isSpaceCh_toLowerCh (c : Char) : isSpaceCh (toLowerCh c) = isSpaceCh c := by
  rw [Bool.eq_iff_iff]
  simp only [isSpaceCh, Bool.and_eq_true, Bool.or_eq_true, decide_eq_true_eq, toNat_toLowerCh]
  split_ifs <;> omega

/-- A character whose lower-case image is not an ASCII letter is fixed by
`toLowerCh`, and two characters with equal lower-case images and a
non-letter on one side are equal. -/
theorem eq_of_toLowerCh_eq_of_not_letter {a b : Char}
    (h : toLowerCh a = toLowerCh b) (ha : isLetterCh a = false) : a = b := by
  have ha' : isUpperCh a = false := by
    unfold isLetterCh at ha
    cases hu : isUpperCh a <;> simp [hu] at ha ⊢
  have hfa : toLowerCh a = a := toLowerCh_of_not_upper ha'
  have hb : isLetterCh b = false := by
    have h1 := isLowerCh_toLowerCh a
    have h2 := isLowerCh_toLowerCh b
    rw [h, h2] at h1
    rw [h1]
    exact ha
  have hb' : isUpperCh b = false := by
    unfold isLetterCh at hb
    cases hu : isUpperCh b <;> simp [hu] at hb ⊢
  have hfb : toLowerCh b = b := toLowerCh_of_not_upper hb'
  rw [← hfa, ← hfb, h]

theorem isLetterCh_eq_of_toLowerCh_eq {a b : Char} (h : toLowerCh a = toLowerCh b) :
    isLetterCh a = isLetterCh b := by
  have h1 := isLowerCh_toLowerCh a
  have h2 := isLowerCh_toLowerCh b
  rw [h, h2] at h1
  exact h1.symm

theorem isSpaceCh_eq_of_toLowerCh_eq {a b : Char} (h : toLowerCh a = toLowerCh b) :
    isSpaceCh a = isSpaceCh b := by
  rw [← isSpaceCh_toLowerCh a, ← isSpaceCh_toLowerCh b, h]

theorem isAlnumCh_eq_of_toLowerCh_eq {a b : Char} (h : toLowerCh a = toLowerCh b) :
    isAlnumCh a = isAlnumCh b := by
  rw [← isAlnumCh_toLowerCh a, ← isAlnumCh_toLowerCh b, h]

theorem isUpperCh_isValid (c : Char) : isUpperCh c = true → 65 ≤ c.toNat ∧ c.toNat ≤ 90 := by
  unfold isUpperCh
  intro h
  simp at h
  omega

/-- A non-letter character is its own lower-case image; in particular equal
lower-case images decide membership in any fixed set of non-letter
characters (braces, newline, hyphen, slash, colon, dashes ...). -/
theorem eq_nonletter_iff_of_toLowerCh_eq {a b d : Char}
    (h : toLowerCh a = toLowerCh b) (hd : isLetterCh d = false) : a = d ↔ b = d := by
  constructor
  · intro had
    subst had
    exact (eq_of_toLowerCh_eq_of_not_letter h hd).symm
  · intro hbd
    subst hbd
    exact (eq_of_toLowerCh_eq_of_not_letter h.symm hd).symm


/-! ### Basic lemmas about the string primitives -/

theorem lowerStr_append (s t : Str) : lowerStr (s ++ t) = lowerStr s ++ lowerStr t :=
  List.map_append _ s t

theorem lowerStr_length (s : Str) : (lowerStr s).length = s.length :=
  List.length_map s _

theorem lowerStr_lowerStr (s : Str) : lowerStr (lowerStr s) = lowerStr s := by
  induction s with
  | nil => rfl
  | cons c cs ih => simp only [lowerStr, List.map_cons] at ih ⊢; rw [toLowerCh_toLowerCh, ih]

theorem lowerStr_capitalizeStr (s : Str) : lowerStr (capitalizeStr s) = lowerStr s := by
  cases s with
  | nil => rfl
  | cons c cs =>
    simp only [capitalizeStr, lowerStr, List.map_cons, toLowerCh_toUpperCh]
    have := lowerStr_lowerStr cs
    simp only [lowerStr] at this
    rw [this]

theorem not_upper_of_not_letter {c : Char} (h : isLetterCh c = false) : isUpperCh c = false := by
  unfold isLetterCh at h
  cases hu : isUpperCh c
  · rfl
  · rw [hu] at h; simp at h

theorem not_letter_of_not_alnum {c : Char} (h : isAlnumCh c = false) : isLetterCh c = false := by
  unfold isAlnumCh at h
  unfold isLetterCh
  cases hu : isUpperCh c <;> cases hl : isLowerCh c <;> simp_all

theorem lowerStr_of_no_letter {s : Str} (h : ∀ c ∈ s, isLetterCh c = false) :
    lowerStr s = s := by
  induction s with
  | nil => rfl
  | cons c cs ih =>
    simp only [lowerStr, List.map_cons]
    rw [toLowerCh_of_not_upper (not_upper_of_not_letter (h c (List.mem_cons_self c cs)))]
    have := ih (fun d hd => h d (List.mem_cons_of_mem c hd))
    simp only [lowerStr] at this
    rw [this]

theorem sIsUpper_no_lower {s : Str} (h : sIsUpper s = true) : s.any isLowerCh = false := by
  unfold sIsUpper at h
  cases ha : s.any isLowerCh
  · rfl
  · rw [ha] at h; simp at h

theorem hasInternalCapitals_of_sIsUpper {s : Str} (h : sIsUpper s = true) :
    hasInternalCapitals s = false := by
  have hl := sIsUpper_no_lower h
  unfold hasInternalCapitals
  cases s with
  | nil => rfl
  | cons c cs =>
    rw [List.any_eq_false]
    intro p hp
    have h1 : p.1 ∈ c :: cs := (List.of_mem_zip hp).1
    have := (List.any_eq_false.mp hl) p.1 h1
    simp [this]

/-! ### Lemmas about `decomposeWord` -/

theorem decomposeWord_join (w : Str) :
    (decomposeWord w).1 ++ (decomposeWord w).2.1 ++ (decomposeWord w).2.2 = w := by
  rw [List.append_assoc]
  unfold decomposeWord
  simp only []
  have h1 : (w.takeWhile (fun c => !isAlnumCh c)) ++ (w.dropWhile (fun c => !isAlnumCh c)) = w :=
    List.takeWhile_append_dropWhile _ _
  have h2 :
      ((w.dropWhile (fun c => !isAlnumCh c)).reverse.dropWhile (fun c => !isAlnumCh c)).reverse ++
      ((w.dropWhile (fun c => !isAlnumCh c)).reverse.takeWhile (fun c => !isAlnumCh c)).reverse =
      w.dropWhile (fun c => !isAlnumCh c) := by
    rw [← List.reverse_append, List.takeWhile_append_dropWhile, List.reverse_reverse]
  rw [h2, h1]

theorem decomposeWord_pfx_nonalnum {w : Str} {c : Char} (h : c ∈ (decomposeWord w).1) :
    isAlnumCh c = false := by
  unfold decomposeWord at h
  simp only [] at h
  have := List.mem_takeWhile_imp h
  simpa using this

theorem decomposeWord_sfx_nonalnum {w : Str} {c : Char} (h : c ∈ (decomposeWord w).2.2) :
    isAlnumCh c = false := by
  unfold decomposeWord at h
  simp only [] at h
  rw [List.mem_reverse] at h
  have := List.mem_takeWhile_imp h
  simpa using this

theorem decomposeWord_core_nil_iff (w : Str) :
    (decomposeWord w).2.1 = [] ↔ hasAlnum w = false := by
  unfold decomposeWord hasAlnum
  simp only []
  constructor
  · intro h
    rw [List.reverse_eq_nil_iff, List.dropWhile_eq_nil_iff] at h
    rw [List.any_eq_false]
    intro c hc
    rw [← List.takeWhile_append_dropWhile (fun c => !isAlnumCh c) w] at hc
    rcases List.mem_append.mp hc with h1 | h2
    · have := List.mem_takeWhile_imp h1
      simpa using this
    · have := h c (List.mem_reverse.mpr h2)
      simpa using this
  · intro h
    have hall : ∀ c ∈ w, (fun c => !isAlnumCh c) c = true := by
      intro c hc
      have := (List.any_eq_false.mp h) c hc
      simp [this]
    rw [List.dropWhile_eq_nil_iff.mpr hall]
    rfl

/-! ### Unfolding lemmas for `titlecaseWord` -/

theorem w_ne_nil_of_core {w : Str} (h : (decomposeWord w).2.1 ≠ []) : w.isEmpty = false := by
  cases w with
  | nil => exact absurd rfl h
  | cons c cs => rfl

theorem core_isEmpty_false {w : Str} (h : (decomposeWord w).2.1 ≠ []) :
    (decomposeWord w).2.1.isEmpty = false := by
  cases hcc : (decomposeWord w).2.1 with
  | nil => exact absurd hcc h
  | cons c cs => rfl

/-- A token without alphanumeric characters has an empty core and is returned
unchanged by `_titlecase_word`, whatever the force flag, the stopwords and
the style. -/
theorem titlecaseWord_no_alnum {w : Str} (h : hasAlnum w = false) (f : Bool) (sw : List Str)
    (st : TitleCaseStyle) : titlecaseWord w f sw st = w := by
  unfold titlecaseWord
  by_cases hw : w.isEmpty = true
  · rw [if_pos hw]
  · rw [if_neg hw]
    have hc : (decomposeWord w).2.1 = [] := (decomposeWord_core_nil_iff w).mpr h
    simp [hc]

/-- A token without letters is its own lower-case image. -/
theorem lowerStr_of_no_alnum {s : Str} (h : hasAlnum s = false) : lowerStr s = s :=
  lowerStr_of_no_letter fun c hc =>
    not_letter_of_not_alnum (by simpa using (List.any_eq_false.mp h) c hc)

/-- An all-upper-case core of length at least 2 that does not match a known
mixed-case term and contains no hyphen or slash is preserved: the whole token
comes back unchanged for every force flag and stopword set. -/
theorem titlecaseWord_acronym {w : Str} (f : Bool) (sw : List Str) (st : TitleCaseStyle)
    (hup : sIsUpper (decomposeWord w).2.1 = true)
    (hlen : 2 ≤ (decomposeWord w).2.1.length)
    (hk : getKnownMixedCase (decomposeWord w).2.1 = none)
    (hdash : (decomposeWord w).2.1.contains '-' = false)
    (hslash : (decomposeWord w).2.1.contains '/' = false) :
    titlecaseWord w f sw st = w := by
  have hscne : (decomposeWord w).2.1 ≠ [] := by
    intro hnil
    rw [hnil] at hup
    exact absurd hup (by decide)
  have hw := w_ne_nil_of_core hscne
  have hne := core_isEmpty_false hscne
  unfold titlecaseWord
  simp only [hw, Bool.false_eq_true, if_false, hne, hk, hdash, hslash]
  have hlen' : decide ((decomposeWord w).2.1.length ≥ 2) = true := by
    simp [hlen]
  by_cases hic : hasInternalCapitals (decomposeWord w).2.1 = true
  · simp only [hic, if_true]
    exact decomposeWord_join w
  · simp only [Bool.not_eq_true] at hic
    simp only [hic, Bool.false_eq_true, if_false, hup, hlen', Bool.and_self, if_true]
    exact decomposeWord_join w

/-- A core that is a stopword (by lower-cased equality), shorter than the
minimum-capitalization length and protected by none of the known-term,
acronym or internal-capital rules is fully lower-cased when the token is not
at a forced position. -/
theorem titlecaseWord_stopword {w : Str} (sw : List Str) (st : TitleCaseStyle)
    (hsw : lowerStr (decomposeWord w).2.1 ∈ sw)
    (hlen : (cleanStr (decomposeWord w).2.1).length < st.minLengthCapitalize)
    (hk : getKnownMixedCase (decomposeWord w).2.1 = none)
    (hic : hasInternalCapitals (decomposeWord w).2.1 = false)
    (hac : (sIsUpper (decomposeWord w).2.1 &&
      decide ((decomposeWord w).2.1.length ≥ 2)) = false)
    (hdash : (decomposeWord w).2.1.contains '-' = false)
    (hslash : (decomposeWord w).2.1.contains '/' = false) :
    titlecaseWord w false sw st = lowerStr w := by
  by_cases hcc : (decomposeWord w).2.1 = []
  · have hna : hasAlnum w = false := (decomposeWord_core_nil_iff w).mp hcc
    rw [titlecaseWord_no_alnum hna, lowerStr_of_no_alnum hna]
  · have hw := w_ne_nil_of_core hcc
    have hne := core_isEmpty_false hcc
    unfold titlecaseWord
    simp only [hw, Bool.false_eq_true, if_false, hne, hk, hdash, hslash, hic, hac,
      Bool.false_or]
    have hlen' : decide ((cleanStr (decomposeWord w).2.1).length ≥ st.minLengthCapitalize)
        = false := by
      simp [Nat.not_le.mpr hlen]
    have hsw' : (!decide (lowerStr (decomposeWord w).2.1 ∈ sw)) = false := by
      simp [hsw]
    simp only [hlen', hsw', Bool.or_self, Bool.false_eq_true, if_false]
    conv_rhs => rw [← decomposeWord_join w]
    rw [lowerStr_append, lowerStr_append]
    have hpfx : lowerStr (decomposeWord w).1 = (decomposeWord w).1 :=
      lowerStr_of_no_letter fun c hc => not_letter_of_not_alnum (decomposeWord_pfx_nonalnum hc)
    have hsfx : lowerStr (decomposeWord w).2.2 = (decomposeWord w).2.2 :=
      lowerStr_of_no_letter fun c hc => not_letter_of_not_alnum (decomposeWord_sfx_nonalnum hc)
    rw [hpfx, hsfx]

/-- In a non-initial hyphen part, a known lower-case prefix is kept
lower-case exactly when the force flag passed to `_titlecase_hyphenated` is
false (the flag is the whole word's `is_major`, not its positional force). -/
theorem casedHyphenPart_prefix_unforced (sw : List Str) (st : TitleCaseStyle) (i : Nat)
    (part : Str) (hi : i ≠ 0)
    (hpre : lowerStr part ∈ lowercasePrefixTable)
    (hk : getKnownMixedCase part = none)
    (hac : (sIsUpper part && decide (part.length ≥ 2)) = false)
    (hic : hasInternalCapitals part = false) :
    casedHyphenPart false sw st i part = lowerStr part := by
  have hd : decide (lowerStr part ∈ lowercasePrefixTable) = true := decide_eq_true hpre
  unfold casedHyphenPart
  simp only [hk, hac, hic, Bool.false_eq_true, if_false, hi, hd, Bool.not_false,
    Bool.and_true, if_true, ite_false, ite_true]

/-- With the force flag true (as it is whenever the whole hyphenated word is
major) and the style's capitalize-all-hyphen-parts policy on, a non-initial
part that is not protected is capitalized, even if it is a known lower-case
prefix. -/
theorem casedHyphenPart_forced (sw : List Str) (st : TitleCaseStyle) (i : Nat)
    (part : Str) (hi : i ≠ 0)
    (hcap : st.hyphenCapitalizeAllParts = true)
    (hk : getKnownMixedCase part = none)
    (hac : (sIsUpper part && decide (part.length ≥ 2)) = false)
    (hic : hasInternalCapitals part = false) :
    casedHyphenPart true sw st i part = capitalizeStr part := by
  unfold casedHyphenPart
  simp only [hk, hac, hic, Bool.false_eq_true, if_false, hi, hcap, Bool.not_true,
    Bool.and_false, Bool.true_or, if_true]

/-- The force flag handed by `_titlecase_word` to `_titlecase_hyphenated` is
the word's `is_major` flag, not merely its positional force. -/
theorem titlecaseWord_hyphen_eq {w : Str} (f : Bool) (sw : List Str) (st : TitleCaseStyle)
    (hk : getKnownMixedCase (decomposeWord w).2.1 = none)
    (hdash : (decomposeWord w).2.1.contains '-' = true)
    (hslash : (decomposeWord w).2.1.contains '/' = false) :
    titlecaseWord w f sw st =
      (decomposeWord w).1 ++
        titlecaseHyphenated (decomposeWord w).2.1
          (f || decide ((cleanStr (decomposeWord w).2.1).length ≥ st.minLengthCapitalize)
            || !decide (lowerStr (decomposeWord w).2.1 ∈ sw)) sw st ++
        (decomposeWord w).2.2 := by
  have hscne : (decomposeWord w).2.1 ≠ [] := by
    intro hnil
    rw [hnil] at hdash
    exact absurd hdash (by decide)
  have hw := w_ne_nil_of_core hscne
  have hne := core_isEmpty_false hscne
  unfold titlecaseWord
  simp only [hw, Bool.false_eq_true, if_false, hne, hk, hdash, hslash, if_true]

theorem isAlnumCh_of_isLowerCh {c : Char} (h : isLowerCh c = true) : isAlnumCh c = true := by
  unfold isAlnumCh
  rw [h]
  simp

/-- If the punctuation-stripped core is fully upper-case then so is the core
itself: interior punctuation is uncased. -/
theorem sIsUpper_of_clean {s : Str} (h : sIsUpper (cleanStr s) = true) : sIsUpper s = true := by
  unfold sIsUpper at h ⊢
  rw [Bool.and_eq_true] at h
  obtain ⟨h1, h2⟩ := h
  rw [Bool.and_eq_true]
  constructor
  · rw [List.any_eq_true] at h1 ⊢
    obtain ⟨c, hc, hcu⟩ := h1
    exact ⟨c, (List.mem_filter.mp hc).1, hcu⟩
  · cases hl : s.any isLowerCh with
    | false => rfl
    | true =>
      exfalso
      rw [List.any_eq_true] at hl
      obtain ⟨c, hc, hcl⟩ := hl
      have hmem : c ∈ cleanStr s := List.mem_filter.mpr ⟨hc, isAlnumCh_of_isLowerCh hcl⟩
      have hany : (cleanStr s).any isLowerCh = true := List.any_eq_true.mpr ⟨c, hmem, hcl⟩
      rw [hany] at h2
      simp at h2

/-! ### Lower-case invariance: the caser only changes letter case -/

theorem map_intersperse {α β : Type} (f : α → β) (sep : α) (l : List α) :
    (l.intersperse sep).map f = (l.map f).intersperse (f sep) := by
  induction l with
  | nil => rfl
  | cons x xs ih =>
    cases xs with
    | nil => rfl
    | cons y zs => simp only [List.intersperse_cons₂, List.map_cons, ih]

theorem lowerStr_intercalate (sep : Str) (l : List Str) :
    lowerStr (List.intercalate sep l) = List.intercalate (lowerStr sep) (l.map lowerStr) := by
  unfold List.intercalate
  unfold lowerStr
  rw [List.map_flatten, map_intersperse]

theorem lowerStr_getKnown {s k : Str} (h : getKnownMixedCase s = some k) :
    lowerStr k = lowerStr s := by
  unfold getKnownMixedCase at h
  have hp := List.find?_some h
  simpa using hp

theorem map_lower_mapWithIndex {f : Nat → Str → Str}
    (h : ∀ i p, lowerStr (f i p) = lowerStr p) :
    ∀ (i : Nat) (ps : List Str), (mapWithIndex f i ps).map lowerStr = ps.map lowerStr := by
  intro i ps
  induction ps generalizing i with
  | nil => rfl
  | cons p ps ih => simp only [mapWithIndex, List.map_cons, h, ih]

theorem lowerStr_casedSlashPart (a b : Bool) (j : Nat) (sp : Str) :
    lowerStr (casedSlashPart a b j sp) = lowerStr sp := by
  unfold casedSlashPart
  cases hk : getKnownMixedCase sp with
  | some known =>
    simp only [hk]
    exact lowerStr_getKnown hk
  | none =>
    simp only [hk]
    split_ifs <;> first | rfl | exact lowerStr_capitalizeStr sp | exact lowerStr_lowerStr sp

theorem lowerStr_casedHyphenPart (fc : Bool) (sw : List Str) (st : TitleCaseStyle)
    (i : Nat) (part : Str) :
    lowerStr (casedHyphenPart fc sw st i part) = lowerStr part := by
  unfold casedHyphenPart
  cases hk : getKnownMixedCase part with
  | some known =>
    simp only [hk]
    exact lowerStr_getKnown hk
  | none =>
    simp only [hk]
    split_ifs <;> first | rfl | exact lowerStr_capitalizeStr part | exact lowerStr_lowerStr part

theorem lowerStr_titlecaseHyphenated (core : Str) (fc : Bool) (sw : List Str)
    (st : TitleCaseStyle) :
    lowerStr (titlecaseHyphenated core fc sw st) = lowerStr core := by
  unfold titlecaseHyphenated
  rw [lowerStr_intercalate,
    map_lower_mapWithIndex (fun i p => lowerStr_casedHyphenPart fc sw st i p),
    show lowerStr ['-'] = ['-'] from by decide, ← show lowerStr ['-'] = ['-'] from by decide,
    ← lowerStr_intercalate, List.intercalate_splitOn]

theorem lowerStr_titlecaseSlashes (core : Str) (a b : Bool) :
    lowerStr (List.intercalate ['/'] (mapWithIndex (casedSlashPart a b) 0 (core.splitOn '/')))
      = lowerStr core := by
  rw [lowerStr_intercalate,
    map_lower_mapWithIndex (fun i p => lowerStr_casedSlashPart a b i p),
    show lowerStr ['/'] = ['/'] from by decide, ← show lowerStr ['/'] = ['/'] from by decide,
    ← lowerStr_intercalate, List.intercalate_splitOn]

/-- `_titlecase_word` only changes the case of letters: the lower-cased
output equals the lower-cased input. -/
theorem lowerStr_titlecaseWord (w : Str) (f : Bool) (sw : List Str) (st : TitleCaseStyle) :
    lowerStr (titlecaseWord w f sw st) = lowerStr w := by
  unfold titlecaseWord
  by_cases hw : w.isEmpty = true
  · rw [if_pos hw]
  · rw [if_neg hw]
    by_cases hc : (decomposeWord w).2.1.isEmpty = true
    · simp only [hc, if_true]
    · simp only [hc, Bool.false_eq_true, if_false]
      have hjoin : lowerStr w =
          lowerStr (decomposeWord w).1 ++ lowerStr (decomposeWord w).2.1 ++
            lowerStr (decomposeWord w).2.2 := by
        conv_lhs => rw [← decomposeWord_join w]
        rw [lowerStr_append, lowerStr_append]
      cases hk : getKnownMixedCase (decomposeWord w).2.1 with
      | some known =>
        simp only [hk]
        rw [lowerStr_append, lowerStr_append, hjoin, lowerStr_getKnown hk]
      | none =>
        simp only [hk]
        by_cases hsl : (decomposeWord w).2.1.contains '/' = true
        · simp only [hsl, if_true]
          rw [lowerStr_append, lowerStr_append, hjoin, lowerStr_titlecaseSlashes]
        · simp only [hsl, Bool.false_eq_true, if_false]
          by_cases hdash : (decomposeWord w).2.1.contains '-' = true
          · simp only [hdash, if_true]
            rw [lowerStr_append, lowerStr_append, hjoin, lowerStr_titlecaseHyphenated]
          · simp only [hdash, Bool.false_eq_true, if_false]
            rw [lowerStr_append, lowerStr_append, hjoin]
            congr 2
            split_ifs
            · rfl
            · rfl
            · exact lowerStr_capitalizeStr (decomposeWord w).2.1
            · exact lowerStr_lowerStr (decomposeWord w).2.1

/-- `processToken` only changes letter case. -/
theorem lowerStr_processToken (sw : List Str) (st : TitleCaseStyle) (tw : Nat)
    (s : RebuildSt) (tok : Str) :
    lowerStr (processToken sw st tw s tok).1 = lowerStr tok := by
  unfold processToken
  by_cases h : (sIsSpace tok || tok.isEmpty) = true
  · rw [if_pos h]
  · rw [if_neg h]
    exact lowerStr_titlecaseWord tok _ sw st

/-- The string-flattening identity for `splitTokens`. -/
theorem splitTokens_flatten (s : Str) : (splitTokens s).flatten = s := by
  induction s with
  | nil => rfl
  | cons c rest ih =>
    unfold splitTokens
    by_cases hc : isSpaceCh c = true
    · rw [if_pos hc]
      cases hsp : splitTokens rest with
      | nil =>
        rw [hsp] at ih
        simp at ih
        simp [ih]
      | cons t ts =>
        cases t with
        | nil =>
          cases ts with
          | nil =>
            rw [hsp] at ih
            simp at ih
            simp [ih]
          | cons sp ts' =>
            rw [hsp] at ih
            simp only [List.flatten_cons, List.nil_append] at ih
            simp only [List.flatten_cons, List.nil_append, List.cons_append, ih]
        | cons d t' =>
          rw [hsp] at ih
          simp only [List.flatten_cons] at ih
          simp only [List.flatten_cons, List.nil_append, List.cons_append,
            List.flatten_nil, List.append_nil, ih]
    · rw [if_neg hc]
      cases hsp : splitTokens rest with
      | nil =>
        rw [hsp] at ih
        simp at ih
        simp [consToFirst, ih]
      | cons t ts =>
        rw [hsp] at ih
        simp only [List.flatten_cons] at ih
        simp only [consToFirst, List.flatten_cons, List.cons_append, ih]

/-- `braceSpan` decomposes its input. -/
theorem braceSpan_decomp {s cont r : Str} (h : braceSpan s = some (cont, r)) :
    s = cont ++ '}' :: r := by
  induction s generalizing cont with
  | nil => exact absurd h (by simp [braceSpan])
  | cons c rest ih =>
    unfold braceSpan at h
    by_cases hc : c = '}'
    · rw [if_pos hc] at h
      simp only [Option.some.injEq, Prod.mk.injEq] at h
      obtain ⟨h1, h2⟩ := h
      subst hc
      rw [← h1, ← h2]
      rfl
    · rw [if_neg hc] at h
      by_cases hn : c = '\n'
      · rw [if_pos hn] at h
        exact absurd h (by simp)
      · rw [if_neg hn] at h
        cases hb : braceSpan rest with
        | none => rw [hb] at h; exact absurd h (by simp)
        | some p =>
          rw [hb] at h
          obtain ⟨cont', r'⟩ := p
          simp only [Option.some.injEq, Prod.mk.injEq] at h
          obtain ⟨h1, h2⟩ := h
          subst h2
          rw [← h1]
          simp only [List.cons_append, List.cons.injEq, true_and]
          exact ih hb

/-- The string-flattening identity for the brace scan. -/
theorem scanSegsF_flatten : ∀ (fuel : Nat) (s : Str), s.length ≤ fuel →
    ((scanSegsF fuel s).map Prod.snd).flatten = s := by
  intro fuel
  induction fuel with
  | zero =>
    intro s hs
    rw [Nat.le_zero, List.length_eq_zero] at hs
    subst hs
    rfl
  | succ fuel ih =>
    intro s hs
    cases s with
    | nil => rfl
    | cons c rest =>
      unfold scanSegsF
      have hflat : ∀ (ps : List (Bool × Str)),
          ((consTextSeg c ps).map Prod.snd).flatten = c :: (ps.map Prod.snd).flatten := by
        intro ps
        cases ps with
        | nil => rfl
        | cons p ps' =>
          obtain ⟨b, seg⟩ := p
          cases b with
          | false => simp [consTextSeg]
          | true => simp [consTextSeg]
      by_cases hc : c = '{'
      · rw [if_pos hc]
        cases hb : braceSpan rest with
        | none =>
          rw [hflat, ih rest (by simp at hs; omega)]
        | some p =>
          obtain ⟨cont, r⟩ := p
          have hdec := braceSpan_decomp hb
          have hlen : r.length ≤ fuel := by
            have : rest.length = cont.length + 1 + r.length := by
              rw [hdec]
              simp
              omega
            simp at hs
            omega
          simp only [List.map_cons, List.flatten_cons, ih r hlen]
          rw [hc, hdec]
          simp
      · rw [if_neg hc]
        rw [hflat, ih rest (by simp at hs; omega)]

theorem scanSegs_flatten (s : Str) : ((scanSegs s).map Prod.snd).flatten = s :=
  scanSegsF_flatten s.length s (le_refl _)

/-- The token loop only changes letter case, token by token. -/
theorem lowerStr_processTokenList (sw : List Str) (st : TitleCaseStyle) (tw : Nat) :
    ∀ (toks : List Str) (s : RebuildSt),
      (processTokenList sw st tw s toks).1.map lowerStr = toks.map lowerStr := by
  intro toks
  induction toks with
  | nil => intro s; rfl
  | cons t ts ih =>
    intro s
    unfold processTokenList
    simp only [List.map_cons]
    rw [lowerStr_processToken, ih]

theorem lowerStr_flatten (l : List Str) :
    lowerStr l.flatten = (l.map lowerStr).flatten := by
  unfold lowerStr
  rw [List.map_flatten]

/-- The segment loop only changes letter case. -/
theorem lowerStr_processSegs (sw : List Str) (st : TitleCaseStyle) (tw : Nat) :
    ∀ (ps : List (Bool × Str)) (s : RebuildSt),
      lowerStr (processSegs sw st tw s ps) = lowerStr ((ps.map Prod.snd).flatten) := by
  intro ps
  induction ps with
  | nil => intro s; rfl
  | cons p ps' ih =>
    intro s
    obtain ⟨b, seg⟩ := p
    cases b with
    | true =>
      unfold processSegs
      simp only [List.map_cons, List.flatten_cons]
      rw [lowerStr_append, lowerStr_append, ih]
    | false =>
      unfold processSegs
      simp only [List.map_cons, List.flatten_cons]
      rw [lowerStr_append, lowerStr_append, ih]
      congr 1
      rw [lowerStr_flatten, lowerStr_processTokenList, ← lowerStr_flatten, splitTokens_flatten]

/-- `suggest_title_case` is a character-wise case change: lower-casing its
output gives back the lower-cased input. -/
theorem lowerStr_suggestTitleCase (t : Str) (sw : Option (List Str)) (sn : Option Str) :
    lowerStr (suggestTitleCase t sw sn) = lowerStr t := by
  unfold suggestTitleCase
  rw [lowerStr_processSegs]
  rw [scanSegs_flatten]

theorem isLetterCh_toLowerCh (c : Char) : isLetterCh (toLowerCh c) = isLetterCh c := by
  unfold isLetterCh
  rw [isUpperCh_toLowerCh, isLowerCh_toLowerCh]
  unfold isLetterCh
  simp

/-- A string that lower-cases to a letter-free string is already
letter-free, hence equal to its lower-casing. -/
theorem eq_lowerStr_of_no_letter {s : Str}
    (h : ∀ c ∈ lowerStr s, isLetterCh c = false) : s = lowerStr s := by
  induction s with
  | nil => rfl
  | cons c cs ih =>
    simp only [lowerStr, List.map_cons] at h ⊢
    have hc : isLetterCh c = false := by
      have h1 := h (toLowerCh c) (List.mem_cons_self _ _)
      rw [isLetterCh_toLowerCh] at h1
      exact h1
    rw [toLowerCh_of_not_upper (not_upper_of_not_letter hc)]
    have := ih (fun d hd => h d (List.mem_cons_of_mem _ hd))
    simp only [lowerStr] at this
    rw [← this]

/-- `braceSpan` fails when no closing brace exists at all. -/
theorem braceSpan_none_of_no_rbrace {s : Str} (h : '}' ∉ s) : braceSpan s = none := by
  induction s with
  | nil => rfl
  | cons c rest ih =>
    unfold braceSpan
    have hc : ¬ c = '}' := fun he => h (he ▸ List.mem_cons_self c rest)
    rw [if_neg hc]
    by_cases hn : c = '\n'
    · rw [if_pos hn]
    · rw [if_neg hn, ih (fun hm => h (List.mem_cons_of_mem c hm))]

/-- Without any closing brace the whole title is a single text segment:
opening braces are treated as ordinary literal characters. -/
theorem scanSegsF_no_rbrace : ∀ (fuel : Nat) (t : Str), t.length ≤ fuel → '}' ∉ t →
    scanSegsF fuel t = if t.isEmpty then [] else [(false, t)] := by
  intro fuel
  induction fuel with
  | zero =>
    intro t ht h
    rw [Nat.le_zero, List.length_eq_zero] at ht
    subst ht
    rfl
  | succ fuel ih =>
    intro t ht h
    cases t with
    | nil => rfl
    | cons c rest =>
      have hrest : scanSegsF fuel rest = if rest.isEmpty then [] else [(false, rest)] :=
        ih rest (by simp at ht; omega) (fun hm => h (List.mem_cons_of_mem c hm))
      have hcons : consTextSeg c (scanSegsF fuel rest) = [(false, c :: rest)] := by
        rw [hrest]
        cases rest with
        | nil => rfl
        | cons d rest' => rfl
      unfold scanSegsF
      by_cases hc : c = '{'
      · rw [if_pos hc]
        rw [braceSpan_none_of_no_rbrace (fun hm => h (List.mem_cons_of_mem c hm))]
        simpa using hcons
      · rw [if_neg hc]
        simpa using hcons

/-- Prefixing the first gap distributes over the interleaving. -/
theorem interleaveStrs_cons_append (x g : Str) (gs bs : List Str) :
    interleaveStrs ((x ++ g) :: gs) bs = x ++ interleaveStrs (g :: gs) bs := by
  cases bs with
  | nil => rfl
  | cons b bs' => simp [interleaveStrs, List.append_assoc]

/-- The rebuild output interleaves the braced segments, in order, with the
cased text. -/
theorem processSegs_interleave (sw : List Str) (st : TitleCaseStyle) (tw : Nat) :
    ∀ (ps : List (Bool × Str)) (s : RebuildSt),
      ∃ gaps : List Str,
        gaps.length = (ps.filterMap (fun p => if p.1 then some p.2 else none)).length + 1 ∧
        processSegs sw st tw s ps =
          interleaveStrs gaps (ps.filterMap (fun p => if p.1 then some p.2 else none)) := by
  intro ps
  induction ps with
  | nil =>
    intro s
    exact ⟨[[]], by simp, rfl⟩
  | cons p ps' ih =>
    intro s
    obtain ⟨b, seg⟩ := p
    cases b with
    | true =>
      obtain ⟨gaps, hlen, heq⟩ := ih s
      refine ⟨[] :: gaps, by simpa using hlen, ?_⟩
      cases gaps with
      | nil => simp at hlen
      | cons g gs =>
        unfold processSegs
        simp only [List.filterMap_cons, if_pos, interleaveStrs, List.nil_append]
        rw [heq]
    | false =>
      obtain ⟨gaps, hlen, heq⟩ :=
        ih (processTokenList sw st tw s (splitTokens seg)).2
      cases gaps with
      | nil => simp at hlen
      | cons g gs =>
        refine ⟨((processTokenList sw st tw s (splitTokens seg)).1.flatten ++ g) :: gs,
          by simpa using hlen, ?_⟩
        unfold processSegs
        simp only [List.filterMap_cons, Bool.false_eq_true, if_false]
        rw [interleaveStrs_cons_append, heq]

/-! ### Congruence of the scans under case variance

Two strings with equal lower-casings have the same character classes at
every position, so every structural computation of the caser (tokenizing,
brace scanning, word counting) treats them identically. -/

theorem lowerStr_cons_eq {c d : Char} {cs ds : Str}
    (h : lowerStr (c :: cs) = lowerStr (d :: ds)) :
    toLowerCh c = toLowerCh d ∧ lowerStr cs = lowerStr ds := by
  simp only [lowerStr, List.map_cons, List.cons.injEq] at h
  exact h

theorem length_eq_of_lowerStr_eq {a b : Str} (h : lowerStr a = lowerStr b) :
    a.length = b.length := by
  have h2 := congrArg List.length h
  rwa [lowerStr_length, lowerStr_length] at h2

theorem lowerStr_eq_nil_iff {a : Str} : lowerStr a = [] ↔ a = [] := by
  cases a <;> simp [lowerStr]

theorem any_congr_of_lowerStr_eq {f : Char → Bool}
    (hf : ∀ c d, toLowerCh c = toLowerCh d → f c = f d) :
    ∀ {a b : Str}, lowerStr a = lowerStr b → a.any f = b.any f := by
  intro a
  induction a with
  | nil =>
    intro b h
    rw [lowerStr_eq_nil_iff.mp h.symm]
  | cons c cs ih =>
    intro b h
    cases b with
    | nil => simp [lowerStr] at h
    | cons d ds =>
      obtain ⟨h1, h2⟩ := lowerStr_cons_eq h
      simp only [List.any_cons, hf c d h1, ih h2]

theorem all_congr_of_lowerStr_eq {f : Char → Bool}
    (hf : ∀ c d, toLowerCh c = toLowerCh d → f c = f d) :
    ∀ {a b : Str}, lowerStr a = lowerStr b → a.all f = b.all f := by
  intro a
  induction a with
  | nil =>
    intro b h
    rw [lowerStr_eq_nil_iff.mp h.symm]
  | cons c cs ih =>
    intro b h
    cases b with
    | nil => simp [lowerStr] at h
    | cons d ds =>
      obtain ⟨h1, h2⟩ := lowerStr_cons_eq h
      simp only [List.all_cons, hf c d h1, ih h2]

theorem hasAlnum_congr {a b : Str} (h : lowerStr a = lowerStr b) :
    hasAlnum a = hasAlnum b :=
  any_congr_of_lowerStr_eq (fun _ _ hcd => isAlnumCh_eq_of_toLowerCh_eq hcd) h

theorem hasNonSpace_congr {a b : Str} (h : lowerStr a = lowerStr b) :
    hasNonSpace a = hasNonSpace b :=
  any_congr_of_lowerStr_eq
    (fun _ _ hcd => by rw [isSpaceCh_eq_of_toLowerCh_eq hcd]) h

theorem isEmpty_congr {a b : Str} (h : lowerStr a = lowerStr b) :
    a.isEmpty = b.isEmpty := by
  cases a <;> cases b <;> simp_all [lowerStr]

theorem sIsSpace_congr {a b : Str} (h : lowerStr a = lowerStr b) :
    sIsSpace a = sIsSpace b := by
  unfold sIsSpace
  rw [isEmpty_congr h,
    all_congr_of_lowerStr_eq (fun _ _ hcd => isSpaceCh_eq_of_toLowerCh_eq hcd) h]

theorem contains_congr {a b : Str} {x : Char} (hx : isLetterCh x = false)
    (h : lowerStr a = lowerStr b) : a.contains x = b.contains x := by
  rw [List.contains_eq_any_beq, List.contains_eq_any_beq]
  refine any_congr_of_lowerStr_eq (fun c d hcd => ?_) h
  have hiff := eq_nonletter_iff_of_toLowerCh_eq hcd hx
  rw [Bool.eq_iff_iff]
  simp only [beq_iff_eq]
  constructor
  · intro hc
    exact (hiff.mp hc.symm).symm
  · intro hd
    exact (hiff.mpr hd.symm).symm

theorem cleanStr_length_congr : ∀ {a b : Str}, lowerStr a = lowerStr b →
    (cleanStr a).length = (cleanStr b).length := by
  intro a
  induction a with
  | nil =>
    intro b h
    rw [lowerStr_eq_nil_iff.mp h.symm]
  | cons c cs ih =>
    intro b h
    cases b with
    | nil => simp [lowerStr] at h
    | cons d ds =>
      obtain ⟨h1, h2⟩ := lowerStr_cons_eq h
      unfold cleanStr
      rw [List.filter_cons, List.filter_cons, isAlnumCh_eq_of_toLowerCh_eq h1]
      have := ih h2
      unfold cleanStr at this
      cases isAlnumCh d <;> simp [this]

theorem getKnownMixedCase_congr {a b : Str} (h : lowerStr a = lowerStr b) :
    getKnownMixedCase a = getKnownMixedCase b := by
  unfold getKnownMixedCase
  rw [h]

theorem dropWhile_lower_congr {f : Char → Bool}
    (hf : ∀ c d, toLowerCh c = toLowerCh d → f c = f d) :
    ∀ {a b : Str}, lowerStr a = lowerStr b →
      lowerStr (a.dropWhile f) = lowerStr (b.dropWhile f) := by
  intro a
  induction a with
  | nil =>
    intro b h
    rw [lowerStr_eq_nil_iff.mp h.symm]
  | cons c cs ih =>
    intro b h
    cases b with
    | nil => simp [lowerStr] at h
    | cons d ds =>
      obtain ⟨h1, h2⟩ := lowerStr_cons_eq h
      rw [List.dropWhile_cons, List.dropWhile_cons, ← hf c d h1]
      cases hc : f c with
      | false =>
        simp only [Bool.false_eq_true, if_false, lowerStr, List.map_cons]
        simp only [lowerStr] at h2
        rw [h1, h2]
      | true =>
        simp only [if_true]
        exact ih h2

theorem lowerStr_reverse (a : Str) : lowerStr a.reverse = (lowerStr a).reverse :=
  List.map_reverse _ _

theorem rstripStr_congr {a b : Str} (h : lowerStr a = lowerStr b) :
    lowerStr (rstripStr a) = lowerStr (rstripStr b) := by
  unfold rstripStr
  rw [lowerStr_reverse, lowerStr_reverse]
  have hr : lowerStr a.reverse = lowerStr b.reverse := by
    rw [lowerStr_reverse, lowerStr_reverse, h]
  rw [dropWhile_lower_congr (fun _ _ hcd => isSpaceCh_eq_of_toLowerCh_eq hcd) hr]

theorem eq_singleton_nonletter_iff {a b : Str} {x : Char} (hx : isLetterCh x = false)
    (h : lowerStr a = lowerStr b) : (a = [x]) ↔ (b = [x]) := by
  constructor
  · intro ha
    subst ha
    cases b with
    | nil => simp [lowerStr] at h
    | cons d ds =>
      obtain ⟨h1, h2⟩ := lowerStr_cons_eq h
      have hds : ds = [] := lowerStr_eq_nil_iff.mp h2.symm
      subst hds
      have hd : isLetterCh d = false := by
        rw [← isLetterCh_eq_of_toLowerCh_eq h1]
        exact hx
      rw [eq_of_toLowerCh_eq_of_not_letter h1.symm hd]
  · intro hb
    subst hb
    cases a with
    | nil => simp [lowerStr] at h
    | cons c cs =>
      obtain ⟨h1, h2⟩ := lowerStr_cons_eq h
      have hcs : cs = [] := lowerStr_eq_nil_iff.mp h2
      subst hcs
      have hc : isLetterCh c = false := by
        rw [isLetterCh_eq_of_toLowerCh_eq h1]
        exact hx
      rw [eq_of_toLowerCh_eq_of_not_letter h1 hc]

theorem endsWith_singleton_congr {a b : Str} {x : Char} (hx : isLetterCh x = false)
    (h : lowerStr a = lowerStr b) : endsWith a [x] = endsWith b [x] := by
  unfold endsWith
  rw [length_eq_of_lowerStr_eq h]
  have hdrop : lowerStr (a.drop (b.length - 1)) = lowerStr (b.drop (b.length - 1)) := by
    unfold lowerStr
    rw [List.map_drop, List.map_drop]
    unfold lowerStr at h
    rw [h]
  have hiff := eq_singleton_nonletter_iff hx hdrop
  rw [Bool.eq_iff_iff]
  simp only [Bool.and_eq_true, decide_eq_true_eq, beq_iff_eq, List.length_singleton]
  rw [hiff]

theorem endsWithDelim_apa_congr {a b : Str} (h : lowerStr a = lowerStr b) :
    endsWithDelim apaStyle a = endsWithDelim apaStyle b := by
  unfold endsWithDelim
  have hr := rstripStr_congr h
  show ([":", "—", "–"].map String.toList).any (fun d => endsWith (rstripStr a) d) =
    ([":", "—", "–"].map String.toList).any (fun d => endsWith (rstripStr b) d)
  simp only [List.map_cons, List.map_nil, List.any_cons, List.any_nil]
  rw [show (":".toList : Str) = [':'] from rfl, show ("—".toList : Str) = ['—'] from rfl,
    show ("–".toList : Str) = ['–'] from rfl]
  rw [endsWith_singleton_congr (by decide) hr, endsWith_singleton_congr (by decide) hr,
    endsWith_singleton_congr (by decide) hr]

theorem lowerStr_cons_congr {c d : Char} {cs ds : Str} (h1 : toLowerCh c = toLowerCh d)
    (h2 : lowerStr cs = lowerStr ds) : lowerStr (c :: cs) = lowerStr (d :: ds) := by
  simp only [lowerStr, List.map_cons] at h2 ⊢
  rw [h1, h2]

theorem splitTokens_ne_nil (s : Str) : splitTokens s ≠ [] := by
  cases s with
  | nil => simp [splitTokens]
  | cons c rest =>
    unfold splitTokens
    by_cases hc : isSpaceCh c = true
    · rw [if_pos hc]
      cases splitTokens rest with
      | nil => simp
      | cons t ts =>
        cases t with
        | nil => cases ts <;> simp
        | cons d t' => simp
    · rw [if_neg hc]
      cases h : splitTokens rest with
      | nil => simp [consToFirst]
      | cons t ts => simp [consToFirst]

theorem consToFirst_sim {c d : Char} (h1 : toLowerCh c = toLowerCh d) :
    ∀ {l l' : List Str}, List.Forall₂ (fun x y => lowerStr x = lowerStr y) l l' →
      List.Forall₂ (fun x y => lowerStr x = lowerStr y) (consToFirst c l) (consToFirst d l') := by
  intro l l' hrel
  cases hrel with
  | nil => exact List.Forall₂.cons (lowerStr_cons_congr h1 rfl) List.Forall₂.nil
  | cons hxy htl => exact List.Forall₂.cons (lowerStr_cons_congr h1 hxy) htl

/-- Tokenization treats case-variant strings identically: the token lists
are pointwise case variants. -/
theorem splitTokens_sim : ∀ {a b : Str}, lowerStr a = lowerStr b →
    List.Forall₂ (fun x y => lowerStr x = lowerStr y) (splitTokens a) (splitTokens b) := by
  intro a
  induction a with
  | nil =>
    intro b h
    rw [lowerStr_eq_nil_iff.mp h.symm]
    exact List.Forall₂.cons rfl List.Forall₂.nil
  | cons c cs ih =>
    intro b h
    cases b with
    | nil => simp [lowerStr] at h
    | cons d ds =>
      obtain ⟨h1, h2⟩ := lowerStr_cons_eq h
      have hs := isSpaceCh_eq_of_toLowerCh_eq h1
      unfold splitTokens
      by_cases hc : isSpaceCh c = true
      · rw [if_pos hc, if_pos (hs ▸ hc)]
        rcases hXe : splitTokens cs with _ | ⟨x, xs⟩
        · exact absurd hXe (splitTokens_ne_nil cs)
        rcases hYe : splitTokens ds with _ | ⟨y, ys⟩
        · exact absurd hYe (splitTokens_ne_nil ds)
        have hrec := ih h2
        rw [hXe, hYe] at hrec
        obtain ⟨hxy, hxs⟩ := List.forall₂_cons.mp hrec
        cases x with
        | nil =>
          have hy : y = [] := lowerStr_eq_nil_iff.mp (by rw [← hxy]; rfl)
          subst hy
          cases xs with
          | nil =>
            cases hxs
            exact List.Forall₂.cons rfl
              (List.Forall₂.cons (lowerStr_cons_congr h1 rfl)
                (List.Forall₂.cons rfl List.Forall₂.nil))
          | cons sp ts =>
            cases hxs with
            | cons hsp hts =>
              exact List.Forall₂.cons rfl
                (List.Forall₂.cons (lowerStr_cons_congr h1 hsp) hts)
        | cons x0 x' =>
          cases y with
          | nil => simp [lowerStr] at hxy
          | cons y0 y' =>
            exact List.Forall₂.cons rfl
              (List.Forall₂.cons (lowerStr_cons_congr h1 rfl)
                (List.Forall₂.cons hxy hxs))
      · rw [if_neg hc, if_neg (fun hd => hc (hs ▸ hd))]
        exact consToFirst_sim h1 (ih h2)

/-- `braceSpan` treats case-variant strings identically. -/
theorem braceSpan_sim : ∀ {a b : Str}, lowerStr a = lowerStr b →
    (braceSpan a = none → braceSpan b = none) ∧
    (∀ ca ra, braceSpan a = some (ca, ra) →
      ∃ cb rb, braceSpan b = some (cb, rb) ∧ lowerStr ca = lowerStr cb ∧
        lowerStr ra = lowerStr rb) := by
  intro a
  induction a with
  | nil =>
    intro b h
    rw [lowerStr_eq_nil_iff.mp h.symm]
    exact ⟨fun _ => rfl, fun ca ra hca => by simp [braceSpan] at hca⟩
  | cons c cs ih =>
    intro b h
    cases b with
    | nil => simp [lowerStr] at h
    | cons d ds =>
      obtain ⟨h1, h2⟩ := lowerStr_cons_eq h
      have hrb : (c = '}') ↔ (d = '}') := eq_nonletter_iff_of_toLowerCh_eq h1 (by decide)
      have hnl : (c = '\n') ↔ (d = '\n') := eq_nonletter_iff_of_toLowerCh_eq h1 (by decide)
      unfold braceSpan
      by_cases hc : c = '}'
      · rw [if_pos hc, if_pos (hrb.mp hc)]
        refine ⟨fun hno => by simp at hno, fun ca ra hca => ?_⟩
        simp only [Option.some.injEq, Prod.mk.injEq] at hca
        obtain ⟨hca1, hca2⟩ := hca
        exact ⟨[], ds, rfl, by rw [← hca1], by rw [← hca2]; exact h2⟩
      · rw [if_neg hc, if_neg (fun hd => hc (hrb.mpr hd))]
        by_cases hn : c = '\n'
        · rw [if_pos hn, if_pos (hnl.mp hn)]
          exact ⟨fun _ => rfl, fun ca ra hca => by simp at hca⟩
        · rw [if_neg hn, if_neg (fun hd => hn (hnl.mpr hd))]
          obtain ⟨ihn, ihs⟩ := ih h2
          cases hrec : braceSpan cs with
          | none =>
            rw [ihn hrec]
            exact ⟨fun _ => rfl, fun ca ra hca => by simp at hca⟩
          | some p =>
            obtain ⟨cont, r⟩ := p
            obtain ⟨cb, rb, hbs, hl1, hl2⟩ := ihs cont r hrec
            rw [hbs]
            refine ⟨fun hno => by simp at hno, fun ca ra hca => ?_⟩
            simp only [Option.some.injEq, Prod.mk.injEq] at hca
            obtain ⟨hca1, hca2⟩ := hca
            exact ⟨d :: cb, rb, rfl, by rw [← hca1]; exact lowerStr_cons_congr h1 hl1,
              by rw [← hca2]; exact hl2⟩

theorem consTextSeg_sim {c d : Char} (h1 : toLowerCh c = toLowerCh d) :
    ∀ {ps qs : List (Bool × Str)},
      List.Forall₂ (fun p q => p.1 = q.1 ∧ lowerStr p.2 = lowerStr q.2) ps qs →
      List.Forall₂ (fun p q => p.1 = q.1 ∧ lowerStr p.2 = lowerStr q.2)
        (consTextSeg c ps) (consTextSeg d qs) := by
  intro ps qs hrel
  cases hrel with
  | nil => exact List.Forall₂.cons ⟨rfl, lowerStr_cons_congr h1 rfl⟩ List.Forall₂.nil
  | cons hpq htl =>
    rename_i p q ps' qs'
    obtain ⟨bp, sp⟩ := p
    obtain ⟨bq, sq⟩ := q
    obtain ⟨hk, hsg⟩ := hpq
    simp only at hk hsg
    subst hk
    cases bp with
    | false => exact List.Forall₂.cons ⟨rfl, lowerStr_cons_congr h1 hsg⟩ htl
    | true =>
      exact List.Forall₂.cons ⟨rfl, lowerStr_cons_congr h1 rfl⟩
        (List.Forall₂.cons ⟨rfl, hsg⟩ htl)

/-- The brace scan treats case-variant strings identically: the segment
lists match in kind and are pointwise case variants. -/
theorem scanSegsF_sim : ∀ (fuel : Nat) {a b : Str}, a.length ≤ fuel →
    lowerStr a = lowerStr b →
    List.Forall₂ (fun p q => p.1 = q.1 ∧ lowerStr p.2 = lowerStr q.2)
      (scanSegsF fuel a) (scanSegsF fuel b) := by
  intro fuel
  induction fuel with
  | zero =>
    intro a b ha h
    rw [Nat.le_zero, List.length_eq_zero] at ha
    subst ha
    rw [lowerStr_eq_nil_iff.mp h.symm]
    exact List.Forall₂.nil
  | succ fuel ih =>
    intro a b ha h
    cases a with
    | nil =>
      rw [lowerStr_eq_nil_iff.mp h.symm]
      exact List.Forall₂.nil
    | cons c cs =>
      cases b with
      | nil => simp [lowerStr] at h
      | cons d ds =>
        obtain ⟨h1, h2⟩ := lowerStr_cons_eq h
        have hlb : (c = '{') ↔ (d = '{') := eq_nonletter_iff_of_toLowerCh_eq h1 (by decide)
        have hcs : cs.length ≤ fuel := by simp at ha; omega
        unfold scanSegsF
        by_cases hc : c = '{'
        · rw [if_pos hc, if_pos (hlb.mp hc)]
          cases hrec : braceSpan cs with
          | none =>
            rw [(braceSpan_sim h2).1 hrec]
            exact consTextSeg_sim h1 (ih hcs h2)
          | some p =>
            obtain ⟨cont, r⟩ := p
            obtain ⟨cb, rb, hbs, hl1, hl2⟩ := (braceSpan_sim h2).2 cont r hrec
            rw [hbs]
            have hrlen : r.length ≤ fuel := by
              have hdec := braceSpan_decomp hrec
              have : cs.length = cont.length + 1 + r.length := by
                rw [hdec]
                simp
                omega
              omega
            refine List.Forall₂.cons ⟨rfl, ?_⟩ (ih hrlen hl2)
            exact lowerStr_cons_congr rfl
              (by rw [lowerStr_append, lowerStr_append, hl1])
        · rw [if_neg hc, if_neg (fun hd => hc (hlb.mpr hd))]
          exact consTextSeg_sim h1 (ih hcs h2)

theorem forall₂_filter_congr {f : Str → Bool}
    (hf : ∀ x y, lowerStr x = lowerStr y → f x = f y) :
    ∀ {l l' : List Str}, List.Forall₂ (fun x y => lowerStr x = lowerStr y) l l' →
      List.Forall₂ (fun x y => lowerStr x = lowerStr y) (l.filter f) (l'.filter f) := by
  intro l l' hrel
  induction hrel with
  | nil => exact List.Forall₂.nil
  | cons hxy htl ih =>
    rename_i x y xs ys
    rw [List.filter_cons, List.filter_cons, ← hf x y hxy]
    cases f x with
    | false => exact ih
    | true => exact List.Forall₂.cons hxy ih

theorem segWords_sim {a b : Str} (h : lowerStr a = lowerStr b) :
    List.Forall₂ (fun x y => lowerStr x = lowerStr y) (segWords a) (segWords b) := by
  unfold segWords
  refine forall₂_filter_congr ?_ (forall₂_filter_congr ?_ (splitTokens_sim h))
  · intro x y hxy
    rw [sIsSpace_congr hxy, hasAlnum_congr hxy]
  · intro x y hxy
    rw [hasNonSpace_congr hxy]

/-- The global word count is the same for case-variant segment lists. -/
theorem wordPositions_length_congr :
    ∀ {ps qs : List (Bool × Str)},
      List.Forall₂ (fun p q => p.1 = q.1 ∧ lowerStr p.2 = lowerStr q.2) ps qs →
      (wordPositions ps).length = (wordPositions qs).length := by
  intro ps qs hrel
  induction hrel with
  | nil => rfl
  | cons hpq htl ih =>
    rename_i p q ps' qs'
    obtain ⟨bp, sp⟩ := p
    obtain ⟨bq, sq⟩ := q
    obtain ⟨hk, hsg⟩ := hpq
    simp only at hk hsg
    subst hk
    unfold wordPositions
    cases bp with
    | true => exact ih
    | false =>
      simp only [List.filterMap_cons, Bool.false_eq_true, if_false, List.flatMap_cons,
        List.length_append]
      unfold wordPositions at ih
      rw [ih, (segWords_sim hsg).length_eq]

/-! ### The shape of token lists and the split/flatten round trip -/

theorem forall₂_of_map_lower_eq : ∀ {l l' : List Str},
    l.map lowerStr = l'.map lowerStr →
    List.Forall₂ (fun x y => lowerStr x = lowerStr y) l l' := by
  intro l
  induction l with
  | nil =>
    intro l' h
    cases l' with
    | nil => exact List.Forall₂.nil
    | cons y ys => simp at h
  | cons x xs ih =>
    intro l' h
    cases l' with
    | nil => simp at h
    | cons y ys =>
      simp only [List.map_cons, List.cons.injEq] at h
      exact List.Forall₂.cons h.1 (ih h.2)

theorem splitTokens_cons (c : Char) (s : Str) :
    splitTokens (c :: s) =
      if isSpaceCh c then
        match splitTokens s with
        | [] :: sp :: ts => [] :: (c :: sp) :: ts
        | other => [] :: [c] :: other
      else consToFirst c (splitTokens s) := rfl

theorem altShape_splitTokens (s : Str) : altShape (splitTokens s) = true := by
  induction s with
  | nil => rfl
  | cons c rest ih =>
    rw [splitTokens_cons]
    by_cases hc : isSpaceCh c = true
    · rw [if_pos hc]
      rcases hXe : splitTokens rest with _ | ⟨x, xs⟩
      · exact absurd hXe (splitTokens_ne_nil rest)
      rw [hXe] at ih
      cases x with
      | nil =>
        cases xs with
        | nil =>
          show altShape ([] :: [c] :: [[]]) = true
          simp [altShape, headOkay, sIsSpace, hc]
        | cons sp ts =>
          show altShape ([] :: (c :: sp) :: ts) = true
          simp only [altShape, List.all_nil, Bool.true_and, Bool.and_eq_true] at ih ⊢
          obtain ⟨⟨hsp, hok⟩, hts⟩ := ih
          have hsp2 : sp.all isSpaceCh = true := by
            unfold sIsSpace at hsp
            rw [Bool.and_eq_true] at hsp
            exact hsp.2
          refine ⟨⟨?_, hok⟩, hts⟩
          unfold sIsSpace
          simp [hc, hsp2]
      | cons x0 x' =>
        cases xs with
        | nil =>
          show altShape ([] :: [c] :: [x0 :: x']) = true
          simp only [altShape] at ih
          simp only [altShape, headOkay, List.all_nil, Bool.true_and, Bool.and_eq_true]
          refine ⟨⟨?_, trivial⟩, ih⟩
          unfold sIsSpace
          simp [hc]
        | cons t2 ts2 =>
          show altShape ([] :: [c] :: (x0 :: x') :: t2 :: ts2) = true
          simp only [altShape, List.all_nil, Bool.true_and, Bool.and_eq_true] at ih ⊢
          refine ⟨⟨?_, ?_⟩, ?_⟩
          · unfold sIsSpace
            simp [hc]
          · simp [headOkay]
          · exact ih
    · rw [if_neg hc]
      rcases hXe : splitTokens rest with _ | ⟨x, xs⟩
      · exact absurd hXe (splitTokens_ne_nil rest)
      rw [hXe] at ih
      show altShape ((c :: x) :: xs) = true
      have hcf : (!isSpaceCh c) = true := by
        cases hval : isSpaceCh c
        · rfl
        · exact absurd hval hc
      cases xs with
      | nil =>
        simp only [altShape, List.all_cons] at ih ⊢
        simp [hcf, ih]
      | cons sp ts =>
        simp only [altShape, List.all_cons, Bool.and_eq_true] at ih ⊢
        obtain ⟨⟨⟨hall, hsp⟩, hok⟩, hts⟩ := ih
        exact ⟨⟨⟨⟨hcf, hall⟩, hsp⟩, hok⟩, hts⟩

theorem splitTokens_all_nonspace {w : Str} (h : w.all (fun c => !isSpaceCh c) = true) :
    splitTokens w = [w] := by
  induction w with
  | nil => rfl
  | cons c w' ih =>
    rw [List.all_cons, Bool.and_eq_true] at h
    obtain ⟨h1, h2⟩ := h
    rw [Bool.not_eq_true'] at h1
    rw [splitTokens_cons, if_neg (by simp [h1]), ih h2]
    rfl

theorem splitTokens_word_append {w : Str} (hw : w.all (fun c => !isSpaceCh c) = true) :
    ∀ {s : Str} {x : Str} {xs : List Str}, splitTokens s = x :: xs →
      splitTokens (w ++ s) = (w ++ x) :: xs := by
  induction w with
  | nil => intro s x xs h; simpa using h
  | cons c w' ih =>
    intro s x xs h
    rw [List.all_cons, Bool.and_eq_true] at hw
    obtain ⟨h1, h2⟩ := hw
    rw [Bool.not_eq_true'] at h1
    show splitTokens (c :: (w' ++ s)) = _
    rw [splitTokens_cons, if_neg (by simp [h1]), ih h2 h]
    rfl

theorem splitTokens_space_append :
    ∀ {sp : Str}, sp ≠ [] → sp.all isSpaceCh = true →
    ∀ (s : Str),
      splitTokens (sp ++ s) =
        (match splitTokens s with
          | [] :: s2 :: ts => [] :: (sp ++ s2) :: ts
          | other => [] :: sp :: other) := by
  intro sp
  induction sp with
  | nil => intro h; exact absurd rfl h
  | cons c sp' ih =>
    intro _ hall s
    rw [List.all_cons, Bool.and_eq_true] at hall
    cases sp' with
    | nil =>
      show splitTokens (c :: s) = _
      rw [splitTokens_cons, if_pos hall.1]
      rcases hs : splitTokens s with _ | ⟨x, xs⟩
      · exact absurd hs (splitTokens_ne_nil s)
      cases x with
      | nil =>
        cases xs with
        | nil => rfl
        | cons s2 ts => rfl
      | cons x0 x' => rfl
    | cons c2 sp'' =>
      have hne : (c2 :: sp'') ≠ [] := by simp
      show splitTokens (c :: ((c2 :: sp'') ++ s)) = _
      rw [splitTokens_cons, if_pos hall.1, ih hne hall.2 s]
      rcases hs : splitTokens s with _ | ⟨x, xs⟩
      · exact absurd hs (splitTokens_ne_nil s)
      cases x with
      | nil =>
        cases xs with
        | nil => rfl
        | cons s2 ts => rfl
      | cons x0 x' => rfl

theorem splitTokens_flatten_of_altShape :
    ∀ (n : Nat) (toks : List Str), toks.length ≤ n → altShape toks = true →
      splitTokens toks.flatten = toks := by
  intro n
  induction n with
  | zero =>
    intro toks hlen hshape
    rw [Nat.le_zero, List.length_eq_zero] at hlen
    subst hlen
    simp [altShape] at hshape
  | succ n ih =>
    intro toks hlen hshape
    match toks with
    | [] => simp [altShape] at hshape
    | [w] =>
      simp only [altShape] at hshape
      simp only [List.flatten_cons, List.flatten_nil, List.append_nil]
      exact splitTokens_all_nonspace hshape
    | w :: sp :: rest =>
      simp only [altShape, Bool.and_eq_true] at hshape
      obtain ⟨⟨⟨hw, hsp⟩, hok⟩, hrest⟩ := hshape
      have hrest_len : rest.length ≤ n := by
        simp at hlen
        omega
      have hflat : splitTokens rest.flatten = rest := ih rest hrest_len hrest
      unfold sIsSpace at hsp
      rw [Bool.and_eq_true] at hsp
      have hspne : sp ≠ [] := by
        cases sp with
        | nil => simp at hsp
        | cons a b => simp
      have hsps : splitTokens (sp ++ rest.flatten) = [] :: sp :: rest := by
        rw [splitTokens_space_append hspne hsp.2 rest.flatten, hflat]
        match rest, hok with
        | [], hok => simp [headOkay] at hok
        | [r0], _ => cases r0 <;> rfl
        | r0 :: r1 :: rs, hok =>
          simp only [headOkay, Bool.not_eq_true'] at hok
          cases r0 with
          | nil => simp at hok
          | cons a b => rfl
      show splitTokens (w ++ (sp ++ rest.flatten)) = w :: sp :: rest
      rw [splitTokens_word_append hw hsps]
      simp

theorem altShape_congr :
    ∀ (n : Nat) {toks toks' : List Str}, toks.length ≤ n →
      List.Forall₂ (fun x y => lowerStr x = lowerStr y) toks' toks →
      altShape toks' = altShape toks := by
  intro n
  induction n with
  | zero =>
    intro toks toks' hlen hrel
    rw [Nat.le_zero, List.length_eq_zero] at hlen
    subst hlen
    cases hrel
    rfl
  | succ n ih =>
    intro toks toks' hlen hrel
    match toks, hrel with
    | [], List.Forall₂.nil => rfl
    | w :: ts, List.Forall₂.cons hxy htl =>
      rename_i w' ts'
      match ts, htl with
      | [], List.Forall₂.nil =>
        simp only [altShape]
        exact all_congr_of_lowerStr_eq (f := fun c => !isSpaceCh c) (fun a b hcd => by
          show (!isSpaceCh a) = (!isSpaceCh b)
          rw [isSpaceCh_eq_of_toLowerCh_eq hcd]) hxy
      | sp :: rest, List.Forall₂.cons hsp hrest =>
        rename_i sp' rest'
        simp only [altShape]
        have h1 := all_congr_of_lowerStr_eq (f := fun c => !isSpaceCh c) (fun a b hcd => by
          show (!isSpaceCh a) = (!isSpaceCh b)
          rw [isSpaceCh_eq_of_toLowerCh_eq hcd]) hxy
        have h2 := sIsSpace_congr hsp
        have h3 : headOkay rest' = headOkay rest := by
          cases hrest with
          | nil => rfl
          | cons hr0 hrs =>
            cases hrs with
            | nil => rfl
            | cons hr1 hrs2 =>
              simp only [headOkay]
              rw [isEmpty_congr hr0]
        have h4 : altShape rest' = altShape rest := by
          apply ih
          · simp at hlen
            omega
          · exact hrest
        rw [h1, h2, h3, h4]

/-! ### Idempotence of the word-level casing -/

theorem isLowerCh_toUpperCh (c : Char) : isLowerCh (toUpperCh c) = false := by
  simp only [Bool.eq_false_iff, ne_eq, isLowerCh, Bool.and_eq_true, decide_eq_true_eq,
    toNat_toUpperCh]
  split_ifs <;> omega

theorem toUpperCh_of_not_lower {c : Char} (h : isLowerCh c = false) : toUpperCh c = c := by
  unfold toUpperCh
  simp [h]

theorem toUpperCh_toUpperCh (c : Char) : toUpperCh (toUpperCh c) = toUpperCh c :=
  toUpperCh_of_not_lower (isLowerCh_toUpperCh c)

theorem capitalizeStr_capitalizeStr (s : Str) :
    capitalizeStr (capitalizeStr s) = capitalizeStr s := by
  cases s with
  | nil => rfl
  | cons c cs =>
    simp only [capitalizeStr]
    rw [toUpperCh_toUpperCh, lowerStr_lowerStr]

theorem hasInternalCapitals_capitalizeStr (s : Str) :
    hasInternalCapitals (capitalizeStr s) = false := by
  cases s with
  | nil => rfl
  | cons c cs =>
    show hasInternalCapitals (toUpperCh c :: lowerStr cs) = false
    unfold hasInternalCapitals
    rw [List.any_eq_false]
    intro p hp
    have h2 : p.2 ∈ lowerStr cs := (List.of_mem_zip hp).2
    obtain ⟨d, _, hde⟩ := List.mem_map.mp h2
    rw [← hde, isUpperCh_toLowerCh]
    simp

theorem hasInternalCapitals_lowerStr (s : Str) :
    hasInternalCapitals (lowerStr s) = false := by
  cases s with
  | nil => rfl
  | cons c cs =>
    show hasInternalCapitals (toLowerCh c :: lowerStr cs) = false
    unfold hasInternalCapitals
    rw [List.any_eq_false]
    intro p hp
    have h2 : p.2 ∈ lowerStr cs := (List.of_mem_zip hp).2
    obtain ⟨d, _, hde⟩ := List.mem_map.mp h2
    rw [← hde, isUpperCh_toLowerCh]
    simp

theorem sIsUpper_lowerStr (s : Str) : sIsUpper (lowerStr s) = false := by
  unfold sIsUpper
  have h : (lowerStr s).any isUpperCh = false := by
    rw [List.any_eq_false]
    intro c hc
    obtain ⟨d, _, hde⟩ := List.mem_map.mp hc
    rw [← hde, isUpperCh_toLowerCh]
    simp
  rw [h]
  rfl

theorem takeWhile_append_all {p : Char → Bool} :
    ∀ {a : Str}, (∀ c ∈ a, p c = true) → ∀ (b : Str),
      (a ++ b).takeWhile p = a ++ b.takeWhile p := by
  intro a
  induction a with
  | nil => intro _ b; rfl
  | cons c cs ih =>
    intro h b
    rw [List.cons_append, List.takeWhile_cons, h c (List.mem_cons_self c cs), if_pos rfl,
      ih (fun d hd => h d (List.mem_cons_of_mem c hd)) b, List.cons_append]

theorem dropWhile_append_all {p : Char → Bool} :
    ∀ {a : Str}, (∀ c ∈ a, p c = true) → ∀ (b : Str),
      (a ++ b).dropWhile p = b.dropWhile p := by
  intro a
  induction a with
  | nil => intro _ b; rfl
  | cons c cs ih =>
    intro h b
    rw [List.cons_append, List.dropWhile_cons, h c (List.mem_cons_self c cs)]
    simp only [if_true]
    exact ih (fun d hd => h d (List.mem_cons_of_mem c hd)) b

/-- Recomposition: gluing a non-alphanumeric prefix, a non-empty middle with
alphanumeric first and last characters, and a non-alphanumeric suffix is
decomposed into exactly those three parts. -/
theorem decomposeWord_parts {pfx X sfx : Str}
    (hp : ∀ c ∈ pfx, isAlnumCh c = false)
    (hs : ∀ c ∈ sfx, isAlnumCh c = false)
    (hh : ∀ c, X.head? = some c → isAlnumCh c = true)
    (hl : ∀ c, X.reverse.head? = some c → isAlnumCh c = true)
    (hX : X ≠ []) :
    decomposeWord (pfx ++ X ++ sfx) = (pfx, X, sfx) := by
  obtain ⟨x0, X'', hXc⟩ := List.exists_cons_of_ne_nil hX
  have hx0 : isAlnumCh x0 = true := hh x0 (by rw [hXc]; rfl)
  obtain ⟨xr, R', hXr⟩ :=
    List.exists_cons_of_ne_nil (show X.reverse ≠ [] by simpa using hX)
  have hxr : isAlnumCh xr = true := hl xr (by rw [hXr]; rfl)
  have hp' : ∀ c ∈ pfx, (fun c => !isAlnumCh c) c = true := fun c hc => by simp [hp c hc]
  have hsr' : ∀ c ∈ sfx.reverse, (fun c => !isAlnumCh c) c = true := fun c hc => by
    simp [hs c (List.mem_reverse.mp hc)]
  have h1 : (pfx ++ X ++ sfx).takeWhile (fun c => !isAlnumCh c) = pfx := by
    rw [List.append_assoc, takeWhile_append_all hp', hXc, List.cons_append,
      List.takeWhile_cons]
    simp [hx0]
  have h2 : (pfx ++ X ++ sfx).dropWhile (fun c => !isAlnumCh c) = X ++ sfx := by
    rw [List.append_assoc, dropWhile_append_all hp', hXc, List.cons_append,
      List.dropWhile_cons]
    simp [hx0]
  have h3 : ((X ++ sfx).reverse).takeWhile (fun c => !isAlnumCh c) = sfx.reverse := by
    rw [List.reverse_append, takeWhile_append_all hsr', hXr, List.takeWhile_cons]
    simp [hxr]
  have h4 : ((X ++ sfx).reverse).dropWhile (fun c => !isAlnumCh c) = X.reverse := by
    rw [List.reverse_append, dropWhile_append_all hsr', hXr, List.dropWhile_cons]
    simp [hxr]
  unfold decomposeWord
  simp only [h1, h2, h3, h4, List.reverse_reverse]

theorem decomposeWord_core_sfx (w : Str) :
    (decomposeWord w).2.1 ++ (decomposeWord w).2.2 =
      w.dropWhile (fun c => !isAlnumCh c) := by
  unfold decomposeWord
  simp only []
  rw [← List.reverse_append, List.takeWhile_append_dropWhile, List.reverse_reverse]

/-- The first character of a non-empty core is alphanumeric. -/
theorem core_head_alnum (w : Str) :
    ∀ c, (decomposeWord w).2.1.head? = some c → isAlnumCh c = true := by
  intro c hc
  rcases hcc : (decomposeWord w).2.1 with _ | ⟨c0, core'⟩
  · rw [hcc] at hc
    simp at hc
  · rw [hcc] at hc
    simp only [List.head?_cons, Option.some.injEq] at hc
    rw [← hc]
    have hrest : w.dropWhile (fun c => !isAlnumCh c) =
        c0 :: (core' ++ (decomposeWord w).2.2) := by
      rw [← decomposeWord_core_sfx w, hcc]
      rfl
    have hh := List.head?_dropWhile_not (fun c => !isAlnumCh c) w
    rw [hrest] at hh
    simp only [List.head?_cons] at hh
    simpa using hh

/-- The last character of a non-empty core is alphanumeric. -/
theorem core_last_alnum (w : Str) :
    ∀ c, (decomposeWord w).2.1.reverse.head? = some c → isAlnumCh c = true := by
  intro c hc
  have hrev : (decomposeWord w).2.1.reverse =
      (w.dropWhile (fun c => !isAlnumCh c)).reverse.dropWhile (fun c => !isAlnumCh c) := by
    unfold decomposeWord
    simp only [List.reverse_reverse]
  rw [hrev] at hc
  have hh := List.head?_dropWhile_not (fun c => !isAlnumCh c)
    (w.dropWhile (fun c => !isAlnumCh c)).reverse
  rw [hc] at hh
  simpa using hh

theorem head_alnum_congr {X Y : Str} (h : lowerStr X = lowerStr Y)
    (hy : ∀ c, Y.head? = some c → isAlnumCh c = true) :
    ∀ c, X.head? = some c → isAlnumCh c = true := by
  intro c hc
  cases X with
  | nil => simp at hc
  | cons x0 X' =>
    cases Y with
    | nil => simp [lowerStr] at h
    | cons y0 Y' =>
      obtain ⟨h1, _⟩ := lowerStr_cons_eq h
      simp only [List.head?_cons, Option.some.injEq] at hc
      subst hc
      rw [isAlnumCh_eq_of_toLowerCh_eq h1]
      exact hy y0 rfl

theorem mem_nonletter_congr {x : Char} (hx : isLetterCh x = false) :
    ∀ {a b : Str}, lowerStr a = lowerStr b → (x ∈ a ↔ x ∈ b) := by
  intro a
  induction a with
  | nil =>
    intro b h
    rw [lowerStr_eq_nil_iff.mp h.symm]
  | cons c cs ih =>
    intro b h
    cases b with
    | nil => simp [lowerStr] at h
    | cons d ds =>
      obtain ⟨h1, h2⟩ := lowerStr_cons_eq h
      simp only [List.mem_cons]
      constructor
      · rintro (hcx | hmem)
        · exact Or.inl ((eq_nonletter_iff_of_toLowerCh_eq h1 hx).mp hcx.symm).symm
        · exact Or.inr ((ih h2).mp hmem)
      · rintro (hdx | hmem)
        · exact Or.inl ((eq_nonletter_iff_of_toLowerCh_eq h1 hx).mpr hdx.symm).symm
        · exact Or.inr ((ih h2).mpr hmem)

/-- No part produced by `splitOn` contains the separator. -/
theorem not_mem_splitOn {x : Char} :
    ∀ {l : List Char} {p : List Char}, p ∈ l.splitOn x → x ∉ p := by
  intro l
  induction l with
  | nil =>
    intro p hp
    simp only [List.splitOn_nil, List.mem_singleton] at hp
    subst hp
    simp
  | cons c l ih =>
    intro p hp
    show x ∉ p
    rw [List.splitOn, List.splitOnP_cons] at hp
    by_cases hc : (c == x) = true
    · rw [if_pos hc] at hp
      rcases List.mem_cons.mp hp with hp1 | hp2
      · subst hp1
        simp
      · exact ih hp2
    · rw [if_neg hc] at hp
      rcases hL : l.splitOnP (fun y => y == x) with _ | ⟨q, qs⟩
      · exact absurd hL (List.splitOnP_ne_nil _ l)
      rw [hL] at hp
      simp only [List.modifyHead] at hp
      rcases List.mem_cons.mp hp with hp1 | hp2
      · subst hp1
        intro hmem
        rcases List.mem_cons.mp hmem with h5 | h6
        · rw [h5] at hc
          simp at hc
        · have hq : q ∈ l.splitOn x := by
            rw [List.splitOn, hL]
            exact List.mem_cons_self q qs
          exact (ih hq) h6
      · have hq : p ∈ l.splitOn x := by
          rw [List.splitOn, hL]
          exact List.mem_cons_of_mem q hp2
        exact ih hq

theorem splitOn_ne_nil (x : Char) (l : List Char) : l.splitOn x ≠ [] :=
  List.splitOnP_ne_nil _ l

theorem mapWithIndex_ne_nil {f : Nat → Str → Str} {i : Nat} {ps : List Str}
    (h : ps ≠ []) : mapWithIndex f i ps ≠ [] := by
  cases ps with
  | nil => exact absurd rfl h
  | cons p ps' => simp [mapWithIndex]

theorem mem_mapWithIndex {f : Nat → Str → Str} :
    ∀ {ps : List Str} {i : Nat} {q : Str}, q ∈ mapWithIndex f i ps →
      ∃ j p, p ∈ ps ∧ q = f j p := by
  intro ps
  induction ps with
  | nil =>
    intro i q hq
    simp [mapWithIndex] at hq
  | cons p ps' ih =>
    intro i q hq
    simp only [mapWithIndex, List.mem_cons] at hq
    rcases hq with hq1 | hq2
    · exact ⟨i, p, List.mem_cons_self p ps', hq1⟩
    · obtain ⟨j, p', hp', hq'⟩ := ih hq2
      exact ⟨j, p', List.mem_cons_of_mem p hp', hq'⟩

theorem mapWithIndex_idem {f : Nat → Str → Str} (h : ∀ i p, f i (f i p) = f i p) :
    ∀ (i : Nat) (ps : List Str),
      mapWithIndex f i (mapWithIndex f i ps) = mapWithIndex f i ps := by
  intro i ps
  induction ps generalizing i with
  | nil => rfl
  | cons p ps' ih => simp only [mapWithIndex, h, ih]

/-- One slash part is cased idempotently. -/
theorem casedSlashPart_idem (M F : Bool) (j : Nat) (sp : Str) :
    casedSlashPart M F j (casedSlashPart M F j sp) = casedSlashPart M F j sp := by
  cases hk : getKnownMixedCase sp with
  | some k =>
    have hout : casedSlashPart M F j sp = k := by
      simp [casedSlashPart, hk]
    have hk2 : getKnownMixedCase k = some k := by
      rw [getKnownMixedCase_congr (lowerStr_getKnown hk), hk]
    rw [hout]
    simp [casedSlashPart, hk2]
  | none =>
    cases hac : (sIsUpper sp && decide (sp.length ≥ 2)) with
    | true =>
      have hout : casedSlashPart M F j sp = sp := by
        simp [casedSlashPart, hk, hac]
      rw [hout, hout]
    | false =>
      cases hic : hasInternalCapitals sp with
      | true =>
        have hout : casedSlashPart M F j sp = sp := by
          simp [casedSlashPart, hk, hac, hic]
        rw [hout, hout]
      | false =>
        cases hmf : (M || (decide (j = 0) && F)) with
        | true =>
          have hout : casedSlashPart M F j sp = capitalizeStr sp := by
            simp [casedSlashPart, hk, hac, hic, hmf]
          rw [hout]
          have hk2 : getKnownMixedCase (capitalizeStr sp) = none := by
            rw [getKnownMixedCase_congr (lowerStr_capitalizeStr sp), hk]
          cases hac2 : (sIsUpper (capitalizeStr sp) &&
              decide ((capitalizeStr sp).length ≥ 2)) with
          | true => simp [casedSlashPart, hk2, hac2]
          | false =>
            simp [casedSlashPart, hk2, hac2, hasInternalCapitals_capitalizeStr, hmf,
              capitalizeStr_capitalizeStr]
        | false =>
          have hout : casedSlashPart M F j sp = lowerStr sp := by
            simp [casedSlashPart, hk, hac, hic, hmf]
          rw [hout]
          have hk2 : getKnownMixedCase (lowerStr sp) = none := by
            rw [getKnownMixedCase_congr (lowerStr_lowerStr sp), hk]
          simp [casedSlashPart, hk2, sIsUpper_lowerStr, hasInternalCapitals_lowerStr, hmf,
            lowerStr_lowerStr]

/-- Evaluation lemmas for `casedHyphenPart`, one per branch. -/
theorem casedHyphenPart_eval_known {part k : Str} (hk : getKnownMixedCase part = some k)
    (FC : Bool) (sw : List Str) (st : TitleCaseStyle) (i : Nat) :
    casedHyphenPart FC sw st i part = k := by
  unfold casedHyphenPart
  rw [hk]

theorem casedHyphenPart_eval_kept {part : Str} (hk : getKnownMixedCase part = none)
    (hac : (sIsUpper part && decide (part.length ≥ 2)) = true)
    (FC : Bool) (sw : List Str) (st : TitleCaseStyle) (i : Nat) :
    casedHyphenPart FC sw st i part = part := by
  unfold casedHyphenPart
  rw [hk]
  simp only [hac, if_true]

theorem casedHyphenPart_eval_internal {part : Str} (hk : getKnownMixedCase part = none)
    (hac : (sIsUpper part && decide (part.length ≥ 2)) = false)
    (hic : hasInternalCapitals part = true)
    (FC : Bool) (sw : List Str) (st : TitleCaseStyle) (i : Nat) :
    casedHyphenPart FC sw st i part = part := by
  unfold casedHyphenPart
  rw [hk]
  simp only [hac, Bool.false_eq_true, if_false, hic, if_true]

theorem casedHyphenPart_eval_major0 {part : Str} (hk : getKnownMixedCase part = none)
    (hac : (sIsUpper part && decide (part.length ≥ 2)) = false)
    (hic : hasInternalCapitals part = false)
    {FC : Bool} {sw : List Str} {st : TitleCaseStyle}
    (hpm : (FC || decide ((cleanStr part).length ≥ st.minLengthCapitalize)
      || !decide (lowerStr part ∈ sw)) = true) :
    casedHyphenPart FC sw st 0 part = capitalizeStr part := by
  unfold casedHyphenPart
  rw [hk]
  simp only [hac, hic, Bool.false_eq_true, if_false, eq_self_iff_true, if_true, hpm]

theorem casedHyphenPart_eval_minor0 {part : Str} (hk : getKnownMixedCase part = none)
    (hac : (sIsUpper part && decide (part.length ≥ 2)) = false)
    (hic : hasInternalCapitals part = false)
    {FC : Bool} {sw : List Str} {st : TitleCaseStyle}
    (hpm : (FC || decide ((cleanStr part).length ≥ st.minLengthCapitalize)
      || !decide (lowerStr part ∈ sw)) = false) :
    casedHyphenPart FC sw st 0 part = lowerStr part := by
  unfold casedHyphenPart
  rw [hk]
  simp only [hac, hic, Bool.false_eq_true, if_false, eq_self_iff_true, if_true, hpm]

theorem casedHyphenPart_eval_pre {part : Str} (hk : getKnownMixedCase part = none)
    (hac : (sIsUpper part && decide (part.length ≥ 2)) = false)
    (hic : hasInternalCapitals part = false)
    {i : Nat} (hi : i ≠ 0) {FC : Bool}
    (hpc : (decide (lowerStr part ∈ lowercasePrefixTable) && !FC) = true)
    (sw : List Str) (st : TitleCaseStyle) :
    casedHyphenPart FC sw st i part = lowerStr part := by
  unfold casedHyphenPart
  rw [hk]
  simp only [hac, hic, Bool.false_eq_true, if_false, hi, hpc, if_true]

theorem casedHyphenPart_eval_majorRest {part : Str} (hk : getKnownMixedCase part = none)
    (hac : (sIsUpper part && decide (part.length ≥ 2)) = false)
    (hic : hasInternalCapitals part = false)
    {i : Nat} (hi : i ≠ 0) {FC : Bool} {sw : List Str} {st : TitleCaseStyle}
    (hpc : (decide (lowerStr part ∈ lowercasePrefixTable) && !FC) = false)
    (hpm : (st.hyphenCapitalizeAllParts
      || decide ((cleanStr part).length ≥ st.minLengthCapitalize)
      || !decide (lowerStr part ∈ sw)) = true) :
    casedHyphenPart FC sw st i part = capitalizeStr part := by
  unfold casedHyphenPart
  rw [hk]
  simp only [hac, hic, Bool.false_eq_true, if_false, hi, hpc, hpm, if_true]

theorem casedHyphenPart_eval_minorRest {part : Str} (hk : getKnownMixedCase part = none)
    (hac : (sIsUpper part && decide (part.length ≥ 2)) = false)
    (hic : hasInternalCapitals part = false)
    {i : Nat} (hi : i ≠ 0) {FC : Bool} {sw : List Str} {st : TitleCaseStyle}
    (hpc : (decide (lowerStr part ∈ lowercasePrefixTable) && !FC) = false)
    (hpm : (st.hyphenCapitalizeAllParts
      || decide ((cleanStr part).length ≥ st.minLengthCapitalize)
      || !decide (lowerStr part ∈ sw)) = false) :
    casedHyphenPart FC sw st i part = lowerStr part := by
  unfold casedHyphenPart
  rw [hk]
  simp only [hac, hic, Bool.false_eq_true, if_false, hi, hpc, hpm, if_true]

theorem sIsUpper_lowerStr_and_len (s : Str) :
    (sIsUpper (lowerStr s) && decide ((lowerStr s).length ≥ 2)) = false := by
  rw [sIsUpper_lowerStr]
  rfl

/-- One hyphen part is cased idempotently. -/
theorem casedHyphenPart_idem (FC : Bool) (sw : List Str) (st : TitleCaseStyle) (i : Nat)
    (part : Str) :
    casedHyphenPart FC sw st i (casedHyphenPart FC sw st i part) =
      casedHyphenPart FC sw st i part := by
  cases hk : getKnownMixedCase part with
  | some k =>
    have hout := casedHyphenPart_eval_known hk FC sw st i
    have hk2 : getKnownMixedCase k = some k := by
      rw [getKnownMixedCase_congr (lowerStr_getKnown hk), hk]
    rw [hout, casedHyphenPart_eval_known hk2 FC sw st i]
  | none =>
    cases hac : (sIsUpper part && decide (part.length ≥ 2)) with
    | true =>
      have hout := casedHyphenPart_eval_kept hk hac FC sw st i
      rw [hout, hout]
    | false =>
      cases hic : hasInternalCapitals part with
      | true =>
        have hout := casedHyphenPart_eval_internal hk hac hic FC sw st i
        rw [hout, hout]
      | false =>
        have hkcap : getKnownMixedCase (capitalizeStr part) = none := by
          rw [getKnownMixedCase_congr (lowerStr_capitalizeStr part), hk]
        have hklow : getKnownMixedCase (lowerStr part) = none := by
          rw [getKnownMixedCase_congr (lowerStr_lowerStr part), hk]
        have hiclow : hasInternalCapitals (lowerStr part) = false :=
          hasInternalCapitals_lowerStr part
        have haclow := sIsUpper_lowerStr_and_len part
        by_cases hi : i = 0
        · subst hi
          cases hpm : (FC || decide ((cleanStr part).length ≥ st.minLengthCapitalize)
              || !decide (lowerStr part ∈ sw)) with
          | true =>
            rw [casedHyphenPart_eval_major0 hk hac hic hpm]
            cases hac2 : (sIsUpper (capitalizeStr part) &&
                decide ((capitalizeStr part).length ≥ 2)) with
            | true => exact casedHyphenPart_eval_kept hkcap hac2 FC sw st 0
            | false =>
              have hpm2 : (FC ||
                  decide ((cleanStr (capitalizeStr part)).length ≥ st.minLengthCapitalize)
                  || !decide (lowerStr (capitalizeStr part) ∈ sw)) = true := by
                rw [cleanStr_length_congr (lowerStr_capitalizeStr part),
                  lowerStr_capitalizeStr part]
                exact hpm
              rw [casedHyphenPart_eval_major0 hkcap hac2
                (hasInternalCapitals_capitalizeStr part) hpm2]
              exact capitalizeStr_capitalizeStr part
          | false =>
            rw [casedHyphenPart_eval_minor0 hk hac hic hpm]
            have hpm2 : (FC ||
                decide ((cleanStr (lowerStr part)).length ≥ st.minLengthCapitalize)
                || !decide (lowerStr (lowerStr part) ∈ sw)) = false := by
              rw [cleanStr_length_congr (lowerStr_lowerStr part), lowerStr_lowerStr part]
              exact hpm
            rw [casedHyphenPart_eval_minor0 hklow haclow hiclow hpm2]
            exact lowerStr_lowerStr part
        · cases hpc : (decide (lowerStr part ∈ lowercasePrefixTable) && !FC) with
          | true =>
            rw [casedHyphenPart_eval_pre hk hac hic hi hpc sw st]
            have hpc2 : (decide (lowerStr (lowerStr part) ∈ lowercasePrefixTable)
                && !FC) = true := by
              rw [lowerStr_lowerStr]
              exact hpc
            rw [casedHyphenPart_eval_pre hklow haclow hiclow hi hpc2 sw st]
            exact lowerStr_lowerStr part
          | false =>
            cases hpm : (st.hyphenCapitalizeAllParts
                || decide ((cleanStr part).length ≥ st.minLengthCapitalize)
                || !decide (lowerStr part ∈ sw)) with
            | true =>
              rw [casedHyphenPart_eval_majorRest hk hac hic hi hpc hpm]
              cases hac2 : (sIsUpper (capitalizeStr part) &&
                  decide ((capitalizeStr part).length ≥ 2)) with
              | true => exact casedHyphenPart_eval_kept hkcap hac2 FC sw st i
              | false =>
                have hpc2 : (decide (lowerStr (capitalizeStr part) ∈ lowercasePrefixTable)
                    && !FC) = false := by
                  rw [lowerStr_capitalizeStr part]
                  exact hpc
                have hpm2 : (st.hyphenCapitalizeAllParts
                    || decide ((cleanStr (capitalizeStr part)).length ≥ st.minLengthCapitalize)
                    || !decide (lowerStr (capitalizeStr part) ∈ sw)) = true := by
                  rw [cleanStr_length_congr (lowerStr_capitalizeStr part),
                    lowerStr_capitalizeStr part]
                  exact hpm
                rw [casedHyphenPart_eval_majorRest hkcap hac2
                  (hasInternalCapitals_capitalizeStr part) hi hpc2 hpm2]
                exact capitalizeStr_capitalizeStr part
            | false =>
              rw [casedHyphenPart_eval_minorRest hk hac hic hi hpc hpm]
              have hpc2 : (decide (lowerStr (lowerStr part) ∈ lowercasePrefixTable)
                  && !FC) = false := by
                rw [lowerStr_lowerStr]
                exact hpc
              have hpm2 : (st.hyphenCapitalizeAllParts
                  || decide ((cleanStr (lowerStr part)).length ≥ st.minLengthCapitalize)
                  || !decide (lowerStr (lowerStr part) ∈ sw)) = false := by
                rw [cleanStr_length_congr (lowerStr_lowerStr part), lowerStr_lowerStr part]
                exact hpm
              rw [casedHyphenPart_eval_minorRest hklow haclow hiclow hi hpc2 hpm2]
              exact lowerStr_lowerStr part

/-! ### Idempotence of `_titlecase_word` -/

theorem isEmpty_false_of_ne_nil {l : Str} (h : l ≠ []) : l.isEmpty = false := by
  cases l with
  | nil => exact absurd rfl h
  | cons c cs => rfl

theorem mid_ne_nil (p : Str) (s : Str) {Y : Str} (h : Y ≠ []) : p ++ Y ++ s ≠ [] := by
  intro hnil
  rcases List.append_eq_nil.mp hnil with ⟨h1, _⟩
  rcases List.append_eq_nil.mp h1 with ⟨_, h2⟩
  exact h h2

/-- Recomposition after recasing: a string case-equivalent to the core slots
into the same prefix/core/suffix decomposition. -/
theorem decomposeWord_recompose {w pfx core sfx : Str}
    (hD : decomposeWord w = (pfx, core, sfx)) (hne : core ≠ [])
    {Y : Str} (hY : lowerStr Y = lowerStr core) :
    decomposeWord (pfx ++ Y ++ sfx) = (pfx, Y, sfx) := by
  have hp : ∀ c ∈ pfx, isAlnumCh c = false := by
    intro c hc
    apply decomposeWord_pfx_nonalnum (w := w)
    rw [hD]
    exact hc
  have hs : ∀ c ∈ sfx, isAlnumCh c = false := by
    intro c hc
    apply decomposeWord_sfx_nonalnum (w := w)
    rw [hD]
    exact hc
  have hh : ∀ c, core.head? = some c → isAlnumCh c = true := by
    intro c hc
    apply core_head_alnum w
    rw [hD]
    exact hc
  have hl : ∀ c, core.reverse.head? = some c → isAlnumCh c = true := by
    intro c hc
    apply core_last_alnum w
    rw [hD]
    exact hc
  have hYne : Y ≠ [] := by
    intro hnil
    rw [hnil] at hY
    exact hne (lowerStr_eq_nil_iff.mp hY.symm)
  exact decomposeWord_parts hp hs (head_alnum_congr hY hh)
    (head_alnum_congr (by rw [lowerStr_reverse, lowerStr_reverse, hY]) hl) hYne

/-- Evaluation of `_titlecase_word` on the known-mixed-case branch. -/
theorem titlecaseWord_eval_known {w pfx core sfx k : Str} (f : Bool) (sw : List Str)
    (st : TitleCaseStyle) (hD : decomposeWord w = (pfx, core, sfx))
    (hw : w.isEmpty = false) (hne : core.isEmpty = false)
    (hk : getKnownMixedCase core = some k) :
    titlecaseWord w f sw st = pfx ++ k ++ sfx := by
  unfold titlecaseWord
  simp only [hD, hw, Bool.false_eq_true, if_false, hne, hk]

/-- Evaluation of `_titlecase_word` on the slash branch. -/
theorem titlecaseWord_eval_slash {w pfx core sfx : Str} (f : Bool) (sw : List Str)
    (st : TitleCaseStyle) (hD : decomposeWord w = (pfx, core, sfx))
    (hw : w.isEmpty = false) (hne : core.isEmpty = false)
    (hk : getKnownMixedCase core = none) (hsl : core.contains '/' = true) :
    titlecaseWord w f sw st =
      pfx ++ List.intercalate ['/'] (mapWithIndex (casedSlashPart
        (f || decide ((cleanStr core).length ≥ st.minLengthCapitalize)
          || !decide (lowerStr core ∈ sw)) f) 0 (core.splitOn '/')) ++ sfx := by
  unfold titlecaseWord
  simp only [hD, hw, Bool.false_eq_true, if_false, hne, hk, hsl, if_true]

/-- Evaluation of `_titlecase_word` on the hyphen branch. -/
theorem titlecaseWord_eval_dash {w pfx core sfx : Str} (f : Bool) (sw : List Str)
    (st : TitleCaseStyle) (hD : decomposeWord w = (pfx, core, sfx))
    (hw : w.isEmpty = false) (hne : core.isEmpty = false)
    (hk : getKnownMixedCase core = none) (hsl : core.contains '/' = false)
    (hdash : core.contains '-' = true) :
    titlecaseWord w f sw st =
      pfx ++ titlecaseHyphenated core
        (f || decide ((cleanStr core).length ≥ st.minLengthCapitalize)
          || !decide (lowerStr core ∈ sw)) sw st ++ sfx := by
  unfold titlecaseWord
  simp only [hD, hw, Bool.false_eq_true, if_false, hne, hk, hsl, hdash, if_true]

/-- Evaluation of `_titlecase_word` on the plain (no slash, no hyphen)
branch, leaving the inner casing conditional intact. -/
theorem titlecaseWord_eval_plain {w pfx core sfx : Str} (f : Bool) (sw : List Str)
    (st : TitleCaseStyle) (hD : decomposeWord w = (pfx, core, sfx))
    (hw : w.isEmpty = false) (hne : core.isEmpty = false)
    (hk : getKnownMixedCase core = none) (hsl : core.contains '/' = false)
    (hdash : core.contains '-' = false) :
    titlecaseWord w f sw st =
      pfx ++
        (if hasInternalCapitals core then core
         else if sIsUpper core && decide (core.length ≥ 2) then core
         else if (f || decide ((cleanStr core).length ≥ st.minLengthCapitalize)
             || !decide (lowerStr core ∈ sw)) then capitalizeStr core
         else lowerStr core) ++ sfx := by
  unfold titlecaseWord
  simp only [hD, hw, Bool.false_eq_true, if_false, hne, hk, hsl, hdash]

/-- Idempotence on the known-mixed-case branch. -/
theorem titlecaseWord_known_idem {w pfx core sfx k : Str} {f : Bool} {sw : List Str}
    {st : TitleCaseStyle}
    (hD : decomposeWord w = (pfx, core, sfx)) (hw : w.isEmpty = false)
    (hne : core ≠ []) (hk : getKnownMixedCase core = some k) :
    titlecaseWord (titlecaseWord w f sw st) f sw st = titlecaseWord w f sw st := by
  have hout := titlecaseWord_eval_known f sw st hD hw (isEmpty_false_of_ne_nil hne) hk
  have hYlow : lowerStr k = lowerStr core := lowerStr_getKnown hk
  have hdk := decomposeWord_recompose hD hne hYlow
  have hYne : k ≠ [] := by
    intro hnil
    rw [hnil] at hYlow
    exact hne (lowerStr_eq_nil_iff.mp hYlow.symm)
  have hw2 := isEmpty_false_of_ne_nil (mid_ne_nil pfx sfx hYne)
  have hk2 : getKnownMixedCase k = some k := by
    rw [getKnownMixedCase_congr hYlow, hk]
  have hout2 := titlecaseWord_eval_known f sw st hdk hw2 (isEmpty_false_of_ne_nil hYne) hk2
  rw [hout, hout2]

/-- Idempotence on the slash branch. -/
theorem titlecaseWord_slash_idem {w pfx core sfx : Str} {f M : Bool} {sw : List Str}
    {st : TitleCaseStyle}
    (hD : decomposeWord w = (pfx, core, sfx)) (hw : w.isEmpty = false)
    (hne : core ≠ []) (hk : getKnownMixedCase core = none)
    (hsl : core.contains '/' = true)
    (hM : M = (f || decide ((cleanStr core).length ≥ st.minLengthCapitalize)
      || !decide (lowerStr core ∈ sw))) :
    titlecaseWord (titlecaseWord w f sw st) f sw st = titlecaseWord w f sw st := by
  have hout := titlecaseWord_eval_slash f sw st hD hw (isEmpty_false_of_ne_nil hne) hk hsl
  rw [← hM] at hout
  obtain ⟨SL, hSL⟩ : ∃ Y, Y = List.intercalate ['/']
      (mapWithIndex (casedSlashPart M f) 0 (core.splitOn '/')) := ⟨_, rfl⟩
  rw [← hSL] at hout
  have hYlow : lowerStr SL = lowerStr core := by
    rw [hSL]
    exact lowerStr_titlecaseSlashes core M f
  have hdk := decomposeWord_recompose hD hne hYlow
  have hYne : SL ≠ [] := by
    intro hnil
    rw [hnil] at hYlow
    exact hne (lowerStr_eq_nil_iff.mp hYlow.symm)
  have hw2 := isEmpty_false_of_ne_nil (mid_ne_nil pfx sfx hYne)
  have hk2 : getKnownMixedCase SL = none := by
    rw [getKnownMixedCase_congr hYlow, hk]
  have hsl2 : SL.contains '/' = true := by
    rw [contains_congr (by decide) hYlow, hsl]
  have hout2 := titlecaseWord_eval_slash f sw st hdk hw2 (isEmpty_false_of_ne_nil hYne) hk2 hsl2
  have hM2 : (f || decide ((cleanStr SL).length ≥ st.minLengthCapitalize)
      || !decide (lowerStr SL ∈ sw)) = M := by
    rw [cleanStr_length_congr hYlow, hYlow, hM]
  rw [hM2] at hout2
  have hsplit : SL.splitOn '/' = mapWithIndex (casedSlashPart M f) 0 (core.splitOn '/') := by
    rw [hSL]
    apply List.splitOn_intercalate
    · intro l hl
      obtain ⟨j, p, hp, hq⟩ := mem_mapWithIndex hl
      rw [hq]
      intro hmem
      exact not_mem_splitOn hp
        ((mem_nonletter_congr (by decide) (lowerStr_casedSlashPart M f j p)).mp hmem)
    · exact mapWithIndex_ne_nil (splitOn_ne_nil '/' core)
  rw [hsplit, mapWithIndex_idem (casedSlashPart_idem M f), ← hSL] at hout2
  rw [hout, hout2]

/-- Idempotence on the hyphen branch. -/
theorem titlecaseWord_dash_idem {w pfx core sfx : Str} {f M : Bool} {sw : List Str}
    {st : TitleCaseStyle}
    (hD : decomposeWord w = (pfx, core, sfx)) (hw : w.isEmpty = false)
    (hne : core ≠ []) (hk : getKnownMixedCase core = none)
    (hsl : core.contains '/' = false) (hdash : core.contains '-' = true)
    (hM : M = (f || decide ((cleanStr core).length ≥ st.minLengthCapitalize)
      || !decide (lowerStr core ∈ sw))) :
    titlecaseWord (titlecaseWord w f sw st) f sw st = titlecaseWord w f sw st := by
  have hout := titlecaseWord_eval_dash f sw st hD hw (isEmpty_false_of_ne_nil hne) hk hsl hdash
  rw [← hM] at hout
  obtain ⟨HL, hHL⟩ : ∃ Y, Y = titlecaseHyphenated core M sw st := ⟨_, rfl⟩
  rw [← hHL] at hout
  have hYlow : lowerStr HL = lowerStr core := by
    rw [hHL]
    exact lowerStr_titlecaseHyphenated core M sw st
  have hdk := decomposeWord_recompose hD hne hYlow
  have hYne : HL ≠ [] := by
    intro hnil
    rw [hnil] at hYlow
    exact hne (lowerStr_eq_nil_iff.mp hYlow.symm)
  have hw2 := isEmpty_false_of_ne_nil (mid_ne_nil pfx sfx hYne)
  have hk2 : getKnownMixedCase HL = none := by
    rw [getKnownMixedCase_congr hYlow, hk]
  have hsl2 : HL.contains '/' = false := by
    rw [contains_congr (by decide) hYlow, hsl]
  have hdash2 : HL.contains '-' = true := by
    rw [contains_congr (by decide) hYlow, hdash]
  have hout2 := titlecaseWord_eval_dash f sw st hdk hw2 (isEmpty_false_of_ne_nil hYne)
    hk2 hsl2 hdash2
  have hM2 : (f || decide ((cleanStr HL).length ≥ st.minLengthCapitalize)
      || !decide (lowerStr HL ∈ sw)) = M := by
    rw [cleanStr_length_congr hYlow, hYlow, hM]
  rw [hM2] at hout2
  have hself : titlecaseHyphenated HL M sw st = HL := by
    rw [hHL]
    unfold titlecaseHyphenated
    have hsplit : (List.intercalate ['-']
        (mapWithIndex (casedHyphenPart M sw st) 0 (core.splitOn '-'))).splitOn '-' =
        mapWithIndex (casedHyphenPart M sw st) 0 (core.splitOn '-') := by
      apply List.splitOn_intercalate
      · intro l hl
        obtain ⟨j, p, hp, hq⟩ := mem_mapWithIndex hl
        rw [hq]
        intro hmem
        exact not_mem_splitOn hp
          ((mem_nonletter_congr (by decide) (lowerStr_casedHyphenPart M sw st j p)).mp hmem)
      · exact mapWithIndex_ne_nil (splitOn_ne_nil '-' core)
    rw [hsplit, mapWithIndex_idem (casedHyphenPart_idem M sw st)]
  rw [hself] at hout2
  rw [hout, hout2]

/-- Idempotence on the plain branch. -/
theorem titlecaseWord_plain_idem {w pfx core sfx : Str} {f M : Bool} {sw : List Str}
    {st : TitleCaseStyle}
    (hD : decomposeWord w = (pfx, core, sfx)) (hw : w.isEmpty = false)
    (hne : core ≠ []) (hk : getKnownMixedCase core = none)
    (hsl : core.contains '/' = false) (hdash : core.contains '-' = false)
    (hM : M = (f || decide ((cleanStr core).length ≥ st.minLengthCapitalize)
      || !decide (lowerStr core ∈ sw))) :
    titlecaseWord (titlecaseWord w f sw st) f sw st = titlecaseWord w f sw st := by
  have hjoin : pfx ++ core ++ sfx = w := by
    have h := decomposeWord_join w
    rw [hD] at h
    exact h
  have hout := titlecaseWord_eval_plain f sw st hD hw (isEmpty_false_of_ne_nil hne) hk hsl hdash
  rw [← hM] at hout
  cases hic : hasInternalCapitals core with
  | true =>
    simp only [hic, eq_self_iff_true, if_true] at hout
    rw [hjoin] at hout
    rw [hout, hout]
  | false =>
    rw [hic] at hout
    simp only [Bool.false_eq_true, if_false] at hout
    cases hac : (sIsUpper core && decide (core.length ≥ 2)) with
    | true =>
      simp only [hac, eq_self_iff_true, if_true] at hout
      rw [hjoin] at hout
      rw [hout, hout]
    | false =>
      rw [hac] at hout
      simp only [Bool.false_eq_true, if_false] at hout
      cases hMv : M with
      | true =>
        simp only [hMv, eq_self_iff_true, if_true] at hout
        have hYlow : lowerStr (capitalizeStr core) = lowerStr core :=
          lowerStr_capitalizeStr core
        have hdk := decomposeWord_recompose hD hne hYlow
        have hYne : capitalizeStr core ≠ [] := by
          intro hnil
          rw [hnil] at hYlow
          exact hne (lowerStr_eq_nil_iff.mp hYlow.symm)
        have hw2 := isEmpty_false_of_ne_nil (mid_ne_nil pfx sfx hYne)
        have hk2 : getKnownMixedCase (capitalizeStr core) = none := by
          rw [getKnownMixedCase_congr hYlow, hk]
        have hsl2 : (capitalizeStr core).contains '/' = false := by
          rw [contains_congr (by decide) hYlow, hsl]
        have hdash2 : (capitalizeStr core).contains '-' = false := by
          rw [contains_congr (by decide) hYlow, hdash]
        have hout2 := titlecaseWord_eval_plain f sw st hdk hw2
          (isEmpty_false_of_ne_nil hYne) hk2 hsl2 hdash2
        have hM2 : (f || decide ((cleanStr (capitalizeStr core)).length ≥
            st.minLengthCapitalize) || !decide (lowerStr (capitalizeStr core) ∈ sw)) = M := by
          rw [cleanStr_length_congr hYlow, hYlow, hM]
        rw [hM2] at hout2
        simp only [hMv, eq_self_iff_true, if_true, hasInternalCapitals_capitalizeStr core,
          Bool.false_eq_true, if_false] at hout2
        cases hac2 : (sIsUpper (capitalizeStr core) &&
            decide ((capitalizeStr core).length ≥ 2)) with
        | true =>
          simp only [hac2, eq_self_iff_true, if_true] at hout2
          rw [hout, hout2]
        | false =>
          rw [hac2] at hout2
          simp only [Bool.false_eq_true, if_false] at hout2
          rw [capitalizeStr_capitalizeStr core] at hout2
          rw [hout, hout2]
      | false =>
        rw [hMv] at hout
        simp only [Bool.false_eq_true, if_false] at hout
        have hYlow : lowerStr (lowerStr core) = lowerStr core := lowerStr_lowerStr core
        have hdk := decomposeWord_recompose hD hne hYlow
        have hYne : lowerStr core ≠ [] := fun hnil => hne (lowerStr_eq_nil_iff.mp hnil)
        have hw2 := isEmpty_false_of_ne_nil (mid_ne_nil pfx sfx hYne)
        have hk2 : getKnownMixedCase (lowerStr core) = none := by
          rw [getKnownMixedCase_congr hYlow, hk]
        have hsl2 : (lowerStr core).contains '/' = false := by
          rw [contains_congr (by decide) hYlow, hsl]
        have hdash2 : (lowerStr core).contains '-' = false := by
          rw [contains_congr (by decide) hYlow, hdash]
        have hout2 := titlecaseWord_eval_plain f sw st hdk hw2
          (isEmpty_false_of_ne_nil hYne) hk2 hsl2 hdash2
        have hM2 : (f || decide ((cleanStr (lowerStr core)).length ≥
            st.minLengthCapitalize) || !decide (lowerStr (lowerStr core) ∈ sw)) = M := by
          rw [cleanStr_length_congr hYlow, hYlow, hM]
        rw [hM2, hMv, hasInternalCapitals_lowerStr core, sIsUpper_lowerStr core] at hout2
        simp only [Bool.false_eq_true, if_false, Bool.false_and] at hout2
        rw [lowerStr_lowerStr core] at hout2
        rw [hout, hout2]

/-- `_titlecase_word` is idempotent: running it twice with the same force
flag, stopwords and style gives the output of one run. -/
theorem titlecaseWord_idem (w : Str) (f : Bool) (sw : List Str) (st : TitleCaseStyle) :
    titlecaseWord (titlecaseWord w f sw st) f sw st = titlecaseWord w f sw st := by
  by_cases hw0 : w.isEmpty = true
  · have hout : titlecaseWord w f sw st = w := by
      unfold titlecaseWord
      rw [if_pos hw0]
    rw [hout, hout]
  · have hw : w.isEmpty = false := by
      cases hE : w.isEmpty with
      | false => rfl
      | true => exact absurd hE hw0
    rcases hD : decomposeWord w with ⟨pfx, core, sfx⟩
    by_cases hcc : core = []
    · have hna : hasAlnum w = false := by
        apply (decomposeWord_core_nil_iff w).mp
        rw [hD]
        exact hcc
      have hout := titlecaseWord_no_alnum hna f sw st
      rw [hout, hout]
    · cases hk : getKnownMixedCase core with
      | some k => exact titlecaseWord_known_idem hD hw hcc hk
      | none =>
        cases hsl : core.contains '/' with
        | true => exact titlecaseWord_slash_idem hD hw hcc hk hsl rfl
        | false =>
          cases hdash : core.contains '-' with
          | true => exact titlecaseWord_dash_idem hD hw hcc hk hsl hdash rfl
          | false => exact titlecaseWord_plain_idem hD hw hcc hk hsl hdash rfl

/-- Every lookup in the registry (whose only entry is `"apa"`) yields the APA
style. -/
theorem getStyle_eq_apa : ∀ o : Option Str, getStyle o = apaStyle := by
  intro o
  cases o with
  | none => rfl
  | some n =>
    simp only [getStyle]
    by_cases hn : n.isEmpty = true
    · rw [if_pos hn]
    · rw [if_neg hn]
      rcases hf : styleTable.find? (fun p => p.1 == lowerStr n) with _ | p
      · simp only [hf]
      · simp only [hf]
        have hm := List.mem_of_find?_eq_some hf
        simp only [styleTable, List.mem_singleton] at hm
        rw [hm]

/-! ### Idempotence of the rebuild loop and of `suggest_title_case` -/

theorem processTokenList_cons (sw : List Str) (st : TitleCaseStyle) (tw : Nat)
    (s : RebuildSt) (t : Str) (ts : List Str) :
    processTokenList sw st tw s (t :: ts) =
      ((processToken sw st tw s t).1 ::
        (processTokenList sw st tw (processToken sw st tw s t).2 ts).1,
       (processTokenList sw st tw (processToken sw st tw s t).2 ts).2) := rfl

theorem processToken_space {tok : Str} (h : (sIsSpace tok || tok.isEmpty) = true)
    (sw : List Str) (st : TitleCaseStyle) (tw : Nat) (s : RebuildSt) :
    processToken sw st tw s tok = (tok, s) := by
  unfold processToken
  rw [if_pos h]

theorem processToken_word {tok : Str} (h : (sIsSpace tok || tok.isEmpty) = false)
    (sw : List Str) (st : TitleCaseStyle) (tw : Nat) (s : RebuildSt) :
    processToken sw st tw s tok =
      (titlecaseWord tok (isFirstOrLast st tw s.counter || endsWithDelim st s.prev) sw st,
       ⟨s.counter + 1, tok⟩) := by
  unfold processToken
  simp only [h, Bool.false_eq_true, if_false]

theorem processSegsList_cons_true (sw : List Str) (st : TitleCaseStyle) (tw : Nat)
    (s : RebuildSt) (seg : Str) (ps : List (Bool × Str)) :
    processSegsList sw st tw s ((true, seg) :: ps) =
      (true, seg) :: processSegsList sw st tw s ps := rfl

theorem processSegsList_cons_false (sw : List Str) (st : TitleCaseStyle) (tw : Nat)
    (s : RebuildSt) (seg : Str) (ps : List (Bool × Str)) :
    processSegsList sw st tw s ((false, seg) :: ps) =
      (false, (processTokenList sw st tw s (splitTokens seg)).1.flatten) ::
        processSegsList sw st tw (processTokenList sw st tw s (splitTokens seg)).2 ps := rfl

theorem processSegs_cons_true (sw : List Str) (st : TitleCaseStyle) (tw : Nat)
    (s : RebuildSt) (seg : Str) (ps : List (Bool × Str)) :
    processSegs sw st tw s ((true, seg) :: ps) = seg ++ processSegs sw st tw s ps := rfl

theorem processSegs_cons_false (sw : List Str) (st : TitleCaseStyle) (tw : Nat)
    (s : RebuildSt) (seg : Str) (ps : List (Bool × Str)) :
    processSegs sw st tw s ((false, seg) :: ps) =
      (processTokenList sw st tw s (splitTokens seg)).1.flatten ++
        processSegs sw st tw (processTokenList sw st tw s (splitTokens seg)).2 ps := rfl

/-- The rebuild loop is the concatenation of its list-level mirror. -/
theorem processSegs_eq_flatten (sw : List Str) (st : TitleCaseStyle) (tw : Nat) :
    ∀ (ps : List (Bool × Str)) (s : RebuildSt),
      processSegs sw st tw s ps = ((processSegsList sw st tw s ps).map Prod.snd).flatten := by
  intro ps
  induction ps with
  | nil => intro s; rfl
  | cons p ps' ih =>
    intro s
    obtain ⟨b, seg⟩ := p
    cases b with
    | true =>
      rw [processSegs_cons_true, processSegsList_cons_true]
      simp only [List.map_cons, List.flatten_cons]
      rw [ih]
    | false =>
      rw [processSegs_cons_false, processSegsList_cons_false]
      simp only [List.map_cons, List.flatten_cons]
      rw [ih]

/-- The rebuilt segment list is segment-wise case-equivalent to its input,
with matching braced flags. -/
theorem processSegsList_rel (sw : List Str) (st : TitleCaseStyle) (tw : Nat) :
    ∀ (ps : List (Bool × Str)) (s : RebuildSt),
      List.Forall₂ (fun p q => p.1 = q.1 ∧ lowerStr p.2 = lowerStr q.2)
        (processSegsList sw st tw s ps) ps := by
  intro ps
  induction ps with
  | nil => intro s; exact List.Forall₂.nil
  | cons p ps' ih =>
    intro s
    obtain ⟨b, seg⟩ := p
    cases b with
    | true =>
      rw [processSegsList_cons_true]
      exact List.Forall₂.cons ⟨rfl, rfl⟩ (ih s)
    | false =>
      rw [processSegsList_cons_false]
      refine List.Forall₂.cons ⟨rfl, ?_⟩ (ih _)
      show lowerStr (processTokenList sw st tw s (splitTokens seg)).1.flatten = lowerStr seg
      rw [lowerStr_flatten, lowerStr_processTokenList, ← lowerStr_flatten, splitTokens_flatten]

/-- Two segment lists with matching flags and segment lengths that flatten to
the same string are equal. -/
theorem segs_eq_of_flatten_eq :
    ∀ {ps qs : List (Bool × Str)},
      List.Forall₂ (fun p q => p.1 = q.1 ∧ (p.2 : Str).length = q.2.length) ps qs →
      (ps.map Prod.snd).flatten = (qs.map Prod.snd).flatten → ps = qs := by
  intro ps qs hrel
  induction hrel with
  | nil => intro _; rfl
  | cons hpq htl ih =>
    rename_i p q ps' qs'
    intro hflat
    obtain ⟨bp, sp⟩ := p
    obtain ⟨bq, sq⟩ := q
    obtain ⟨h1, h2⟩ := hpq
    simp only at h1 h2
    subst h1
    simp only [List.map_cons, List.flatten_cons] at hflat
    obtain ⟨hs, ht⟩ := List.append_inj hflat h2
    rw [hs, ih ht]

/-- Composing two case simulations against the same segment list yields a
flag- and length-matching relation. -/
theorem segs_rel_lengths :
    ∀ {as bs cs : List (Bool × Str)},
      List.Forall₂ (fun p q => p.1 = q.1 ∧ lowerStr p.2 = lowerStr q.2) as bs →
      List.Forall₂ (fun p q => p.1 = q.1 ∧ lowerStr p.2 = lowerStr q.2) cs bs →
      List.Forall₂ (fun p q => p.1 = q.1 ∧ (p.2 : Str).length = q.2.length) as cs := by
  intro as bs cs h1
  induction h1 generalizing cs with
  | nil =>
    intro h2
    cases h2
    exact List.Forall₂.nil
  | cons hpq htl ih =>
    intro h2
    cases h2 with
    | cons hcq hcl =>
      exact List.Forall₂.cons
        ⟨hpq.1.trans hcq.1.symm, length_eq_of_lowerStr_eq (hpq.2.trans hcq.2.symm)⟩
        (ih hcl)

/-- The token loop is idempotent on its own output when restarted from a
state with the same counter and a case-equivalent previous token. -/
theorem processTokenList_idem (sw : List Str) (tw : Nat) :
    ∀ (ts : List Str) (s1 s2 : RebuildSt),
      s1.counter = s2.counter → lowerStr s1.prev = lowerStr s2.prev →
      (processTokenList sw apaStyle tw s2 (processTokenList sw apaStyle tw s1 ts).1).1 =
          (processTokenList sw apaStyle tw s1 ts).1 ∧
        (processTokenList sw apaStyle tw s1 ts).2.counter =
          (processTokenList sw apaStyle tw s2
            (processTokenList sw apaStyle tw s1 ts).1).2.counter ∧
        lowerStr (processTokenList sw apaStyle tw s1 ts).2.prev =
          lowerStr (processTokenList sw apaStyle tw s2
            (processTokenList sw apaStyle tw s1 ts).1).2.prev := by
  intro ts
  induction ts with
  | nil =>
    intro s1 s2 hc hp
    exact ⟨rfl, hc, hp⟩
  | cons t ts' ih =>
    intro s1 s2 hc hp
    by_cases hsp : (sIsSpace t || t.isEmpty) = true
    · obtain ⟨ha, hb, hcp⟩ := ih s1 s2 hc hp
      simp only [processTokenList_cons, processToken_space hsp]
      exact ⟨by rw [ha], hb, hcp⟩
    · have hspf : (sIsSpace t || t.isEmpty) = false := by
        cases hE : (sIsSpace t || t.isEmpty) with
        | false => rfl
        | true => exact absurd hE hsp
      obtain ⟨W, hW⟩ : ∃ W, W = titlecaseWord t
          (isFirstOrLast apaStyle tw s1.counter || endsWithDelim apaStyle s1.prev) sw
          apaStyle := ⟨_, rfl⟩
      have hWlow : lowerStr W = lowerStr t := by
        rw [hW]
        exact lowerStr_titlecaseWord t _ sw apaStyle
      have hspW : (sIsSpace W || W.isEmpty) = false := by
        rw [sIsSpace_congr hWlow, isEmpty_congr hWlow]
        exact hspf
      have hFC : (isFirstOrLast apaStyle tw s2.counter || endsWithDelim apaStyle s2.prev) =
          (isFirstOrLast apaStyle tw s1.counter || endsWithDelim apaStyle s1.prev) := by
        rw [← hc, ← endsWithDelim_apa_congr hp]
      have hWW : titlecaseWord W (isFirstOrLast apaStyle tw s2.counter ||
          endsWithDelim apaStyle s2.prev) sw apaStyle = W := by
        rw [hFC, hW]
        exact titlecaseWord_idem t _ sw apaStyle
      obtain ⟨ha, hb, hcp⟩ := ih ⟨s1.counter + 1, t⟩ ⟨s2.counter + 1, W⟩
        (by show s1.counter + 1 = s2.counter + 1; rw [hc])
        (by show lowerStr t = lowerStr W; exact hWlow.symm)
      simp only [processTokenList_cons, processToken_word hspf, processToken_word hspW,
        ← hW, hWW]
      exact ⟨by rw [ha], hb, hcp⟩

/-- The rebuild loop reproduces its own output segments verbatim when
restarted from a state with the same counter and a case-equivalent previous
token. -/
theorem processSegsList_idem (sw : List Str) (tw : Nat) :
    ∀ (ps : List (Bool × Str)) (s1 s2 : RebuildSt),
      s1.counter = s2.counter → lowerStr s1.prev = lowerStr s2.prev →
      processSegs sw apaStyle tw s2 (processSegsList sw apaStyle tw s1 ps) =
        ((processSegsList sw apaStyle tw s1 ps).map Prod.snd).flatten := by
  intro ps
  induction ps with
  | nil => intro s1 s2 _ _; rfl
  | cons p ps' ih =>
    intro s1 s2 hc hp
    obtain ⟨b, seg⟩ := p
    cases b with
    | true =>
      rw [processSegsList_cons_true, processSegs_cons_true]
      simp only [List.map_cons, List.flatten_cons]
      rw [ih s1 s2 hc hp]
    | false =>
      rw [processSegsList_cons_false, processSegs_cons_false]
      have hforall := forall₂_of_map_lower_eq
        (lowerStr_processTokenList sw apaStyle tw (splitTokens seg) s1)
      have hshape : altShape (processTokenList sw apaStyle tw s1 (splitTokens seg)).1
          = true := by
        rw [altShape_congr (splitTokens seg).length (le_refl _) hforall]
        exact altShape_splitTokens seg
      have hsplit : splitTokens
          (processTokenList sw apaStyle tw s1 (splitTokens seg)).1.flatten =
          (processTokenList sw apaStyle tw s1 (splitTokens seg)).1 :=
        splitTokens_flatten_of_altShape _ _ (le_refl _) hshape
      rw [hsplit]
      obtain ⟨ha, hb, hcp⟩ := processTokenList_idem sw tw (splitTokens seg) s1 s2 hc hp
      rw [ha]
      simp only [List.map_cons, List.flatten_cons]
      rw [ih _ _ hb hcp]

/-- `suggest_title_case` with no stopword set, unfolded. -/
theorem suggestTitleCase_none (t : Str) (sn : Option Str) :
    suggestTitleCase t none sn =
      processSegs apaStyle.stopwords apaStyle ((wordPositions (scanSegs t)).length) ⟨0, []⟩
        (scanSegs t) := by
  unfold suggestTitleCase
  simp only [getStyle_eq_apa]

/-- `suggest_title_case` with an explicit stopword set, unfolded. -/
theorem suggestTitleCase_some (t : Str) (s : List Str) (sn : Option Str) :
    suggestTitleCase t (some s) sn =
      processSegs (if s.isEmpty then apaStyle.stopwords else s) apaStyle
        ((wordPositions (scanSegs t)).length) ⟨0, []⟩ (scanSegs t) := by
  unfold suggestTitleCase
  simp only [getStyle_eq_apa]

/-- Core of the idempotence argument, for any resolved stopword list. -/
theorem suggestCore_idem (swl : List Str) (t : Str) :
    processSegs swl apaStyle
        ((wordPositions (scanSegs (processSegs swl apaStyle
          ((wordPositions (scanSegs t)).length) ⟨0, []⟩ (scanSegs t)))).length) ⟨0, []⟩
        (scanSegs (processSegs swl apaStyle ((wordPositions (scanSegs t)).length) ⟨0, []⟩
          (scanSegs t))) =
      processSegs swl apaStyle ((wordPositions (scanSegs t)).length) ⟨0, []⟩ (scanSegs t) := by
  obtain ⟨P, hP⟩ : ∃ P, P = processSegs swl apaStyle
      ((wordPositions (scanSegs t)).length) ⟨0, []⟩ (scanSegs t) := ⟨_, rfl⟩
  rw [← hP]
  have hlow : lowerStr P = lowerStr t := by
    rw [hP, lowerStr_processSegs, scanSegs_flatten]
  have hlen : P.length = t.length := length_eq_of_lowerStr_eq hlow
  have hsim : List.Forall₂ (fun p q => p.1 = q.1 ∧ lowerStr p.2 = lowerStr q.2)
      (scanSegs P) (scanSegs t) := by
    unfold scanSegs
    rw [hlen]
    exact scanSegsF_sim t.length (le_of_eq hlen) hlow
  have hPrel := processSegsList_rel swl apaStyle ((wordPositions (scanSegs t)).length)
      (scanSegs t) ⟨0, []⟩
  have hPflat : P = ((processSegsList swl apaStyle ((wordPositions (scanSegs t)).length)
      ⟨0, []⟩ (scanSegs t)).map Prod.snd).flatten := by
    rw [hP]
    exact processSegs_eq_flatten swl apaStyle _ (scanSegs t) ⟨0, []⟩
  have hlists : scanSegs P = processSegsList swl apaStyle
      ((wordPositions (scanSegs t)).length) ⟨0, []⟩ (scanSegs t) := by
    apply segs_eq_of_flatten_eq (segs_rel_lengths hsim hPrel)
    rw [scanSegs_flatten P, ← hPflat]
  have hTW : (wordPositions (scanSegs P)).length = (wordPositions (scanSegs t)).length :=
    wordPositions_length_congr hsim
  rw [hTW, hlists, hPflat]
  exact processSegsList_idem swl ((wordPositions (scanSegs t)).length)
    (scanSegs t) ⟨0, []⟩ ⟨0, []⟩ rfl rfl


/-! ### Claims -/

/-- C9: `get_style` never errors: an absent or empty name returns the default
`"apa"` style, any name is looked up case-insensitively, and any unknown
name falls back to the default.  In this registry, whose only entry is
`"apa"`, every call therefore returns the APA style. -/
theorem claim_C9_get_style_total :
    getStyle none = apaStyle ∧ getStyle (some []) = apaStyle ∧
    (∀ n : Str, getStyle (some n) = getStyle (some (lowerStr n))) ∧
    (∀ n : Str, getStyle (some n) = apaStyle) := by
  refine ⟨rfl, rfl, ?_, ?_⟩
  · intro n
    rw [getStyle_eq_apa (some n), getStyle_eq_apa (some (lowerStr n))]
  · intro n
    exact getStyle_eq_apa (some n)

/-- C10: calling `suggest_title_case` with an empty stopword set uses the
style's default stopwords, exactly as when the argument is omitted; passing
an empty set cannot disable stopword lowering. -/
theorem claim_C10_empty_stopwords_default :
    ∀ (t : Str) (sn : Option Str),
      suggestTitleCase t (some []) sn = suggestTitleCase t none sn ∧
      suggestTitleCase t none sn = suggestTitleCase t (some (getStyle sn).stopwords) sn := by
  intro t sn
  constructor
  · rfl
  · unfold suggestTitleCase
    rw [getStyle_eq_apa sn]
    rfl

/-- C7 counterexample: in `"- the cat"` the leading punctuation-only token
takes rebuild word index 0, so the stopword `"the"` is not treated as the
forced first word and stays lower-case, while without the punctuation token
it is forced and capitalized; the claim says the punctuation token should
not absorb the forced first-word position. -/
theorem claim_C7_counterexample :
    suggestTitleCaseDefault ("- the cat".toList) = ("- the Cat".toList) ∧
    suggestTitleCaseDefault ("the cat".toList) = ("The Cat".toList) := by
  exact ⟨by decide, by decide⟩

/-- C7 amended: a punctuation-only (alphanumeric-free) token receives no
casing decision and remains unchanged in the output, and it is excluded from
`word_positions`; but in the rebuild loop every non-space non-empty token,
alphanumeric or not, advances the global word counter, so a leading
punctuation-only token does absorb the forced first-word position.  A lone
digit token, by contrast, is selected as a word, being alphanumeric. -/
theorem claim_C7_amended :
    (∀ (tok : Str) (f : Bool) (sw : List Str) (st : TitleCaseStyle),
      hasAlnum tok = false → titlecaseWord tok f sw st = tok) ∧
    (∀ (seg : Str) (t : Str), t ∈ segWords seg → hasAlnum t = true) ∧
    (∀ (sw : List Str) (st : TitleCaseStyle) (tw : Nat) (s : RebuildSt) (tok : Str),
      sIsSpace tok = false → tok ≠ [] →
      (processToken sw st tw s tok).2.counter = s.counter + 1) ∧
    ("7".toList : Str) ∈ segWords ("7 cats".toList) := by
  refine ⟨?_, ?_, ?_, by decide⟩
  · intro tok f sw st h
    exact titlecaseWord_no_alnum h f sw st
  · intro seg t ht
    unfold segWords at ht
    have h2 := (List.mem_filter.mp ht).2
    rw [Bool.and_eq_true] at h2
    exact h2.2
  · intro sw st tw s tok h1 h2
    unfold processToken
    have h3 : (sIsSpace tok || tok.isEmpty) = false := by
      rw [h1]
      cases tok with
      | nil => exact absurd rfl h2
      | cons c cs => rfl
    simp only [h3, Bool.false_eq_true, if_false]

theorem claim_C7_witness :
    titlecaseWord ("-".toList) true apaStopwords apaStyle = ("-".toList) ∧
    hasAlnum ("cat".toList) = true ∧
    (processToken apaStopwords apaStyle 2 ⟨0, []⟩ ("-".toList)).2.counter = 1 :=
  ⟨claim_C7_amended.1 ("-".toList) true apaStopwords apaStyle (by decide),
   claim_C7_amended.2.1 ("- cat".toList) ("cat".toList) (by decide),
   claim_C7_amended.2.2.1 apaStopwords apaStyle 2 ⟨0, []⟩ ("-".toList) (by decide) (by decide)⟩

/-- C6 counterexample: `"MHZ"` has a fully upper-case core of length 3, yet
`suggest_title_case` rewrites it to the canonical known mixed-case spelling
`"MHz"`, so the word is not unchanged: the known-term lookup precedes the
acronym check. -/
theorem claim_C6_counterexample :
    suggestTitleCaseDefault ("MHZ".toList) = ("MHz".toList) ∧
    ("MHz".toList : Str) ≠ ("MHZ".toList : Str) := by
  exact ⟨by decide, by decide⟩

/-- C6 amended: a word whose punctuation-stripped core is fully upper-case
with length at least 2 is emitted unchanged regardless of position (force
flag) and stopword set, provided its core does not match a known mixed-case
term (which would be rewritten to the canonical spelling, e.g. MHZ → MHz)
and contains no hyphen or slash. -/
theorem claim_C6_amended :
    ∀ (w : Str) (f : Bool) (sw : List Str),
      sIsUpper (cleanStr (decomposeWord w).2.1) = true →
      2 ≤ (cleanStr (decomposeWord w).2.1).length →
      getKnownMixedCase (decomposeWord w).2.1 = none →
      (decomposeWord w).2.1.contains '-' = false →
      (decomposeWord w).2.1.contains '/' = false →
      titlecaseWord w f sw apaStyle = w := by
  intro w f sw hup hlen hk hdash hslash
  exact titlecaseWord_acronym f sw apaStyle (sIsUpper_of_clean hup)
    (le_trans hlen (List.length_filter_le _ _)) hk hdash hslash

theorem claim_C6_witness :
    titlecaseWord ("(BERT):".toList) false apaStopwords apaStyle = ("(BERT):".toList) :=
  claim_C6_amended ("(BERT):".toList) false apaStopwords (by decide) (by decide)
    (by decide) (by decide) (by decide)

/-- C1 counterexample: `"from"` is in the APA stopword set and is not at a
forced position in `"a study from cats"`, yet it is capitalized rather than
lower-cased: its cleaned length 4 reaches `min_length_capitalize = 4`, and
the length rule overrides stopword membership. -/
theorem claim_C1_counterexample :
    ("from".toList : Str) ∈ apaStopwords ∧
    suggestTitleCaseDefault ("a study from cats".toList) = ("A Study From Cats".toList) := by
  exact ⟨by decide, by decide⟩

/-- C1 amended: a non-forced word whose core is in the active stopword set is
emitted fully lower-cased provided additionally the cleaned core is shorter
than the style's `min_length_capitalize` and the core is not protected as a
known mixed-case term, an internal-capital word or an all-caps acronym (all
upper-case of length at least 2, as in the code's branch) and contains no
hyphen or slash; the spec's own end-to-end example holds. -/
theorem claim_C1_amended :
    (∀ (w : Str) (sw : List Str),
      lowerStr (decomposeWord w).2.1 ∈ sw →
      (cleanStr (decomposeWord w).2.1).length < apaStyle.minLengthCapitalize →
      getKnownMixedCase (decomposeWord w).2.1 = none →
      hasInternalCapitals (decomposeWord w).2.1 = false →
      (sIsUpper (decomposeWord w).2.1 &&
        decide ((decomposeWord w).2.1.length ≥ 2)) = false →
      (decomposeWord w).2.1.contains '-' = false →
      (decomposeWord w).2.1.contains '/' = false →
      titlecaseWord w false sw apaStyle = lowerStr w) ∧
    suggestTitleCaseDefault ("a study of the cat".toList) = ("A Study of the Cat".toList) := by
  constructor
  · intro w sw h1 h2 h3 h4 h5 h6 h7
    exact titlecaseWord_stopword sw apaStyle h1 h2 h3 h4 h5 h6 h7
  · decide

theorem claim_C1_witness :
    titlecaseWord ("A".toList) false apaStopwords apaStyle = ("a".toList) := by
  have h := claim_C1_amended.1 ("A".toList) apaStopwords (by decide) (by decide)
    (by decide) (by decide) (by decide) (by decide) (by decide)
  rw [h]
  decide

/-- C2 counterexample: in `"a non-self-report study"` the hyphen part
`"self"` is a known subordinate prefix in a non-initial position of a word
at a non-forced position, yet it is capitalized: the flag checked by the
prefix rule is the word's `is_major` flag (true here, since
`"non-self-report"` is not a stopword), not the positional force. -/
theorem claim_C2_counterexample :
    ("self".toList : Str) ∈ lowercasePrefixTable ∧
    suggestTitleCaseDefault ("a non-self-report study".toList) =
      ("A Non-Self-Report Study".toList) := by
  exact ⟨by decide, by decide⟩

/-- C2 amended: `_titlecase_word` passes the word's `is_major` flag (true
whenever the word is forced, its cleaned core reaches the minimum length, or
its lower-cased core is not a stopword — so true for nearly every hyphenated
word) as the force flag of `_titlecase_hyphenated`; a non-initial part that
is a known subordinate prefix is kept lower-case exactly when that flag is
false, and is otherwise capitalized under the APA
capitalize-all-hyphen-parts policy. -/
theorem claim_C2_amended :
    (∀ (w : Str) (f : Bool) (sw : List Str),
      getKnownMixedCase (decomposeWord w).2.1 = none →
      (decomposeWord w).2.1.contains '-' = true →
      (decomposeWord w).2.1.contains '/' = false →
      titlecaseWord w f sw apaStyle =
        (decomposeWord w).1 ++
          titlecaseHyphenated (decomposeWord w).2.1
            (f || decide ((cleanStr (decomposeWord w).2.1).length ≥ apaStyle.minLengthCapitalize)
              || !decide (lowerStr (decomposeWord w).2.1 ∈ sw)) sw apaStyle ++
          (decomposeWord w).2.2) ∧
    (∀ (sw : List Str) (i : Nat) (part : Str),
      i ≠ 0 → lowerStr part ∈ lowercasePrefixTable →
      getKnownMixedCase part = none →
      (sIsUpper part && decide (part.length ≥ 2)) = false →
      hasInternalCapitals part = false →
      casedHyphenPart false sw apaStyle i part = lowerStr part ∧
      casedHyphenPart true sw apaStyle i part = capitalizeStr part) := by
  constructor
  · intro w f sw hk hdash hslash
    exact titlecaseWord_hyphen_eq f sw apaStyle hk hdash hslash
  · intro sw i part hi hpre hk hac hic
    exact ⟨casedHyphenPart_prefix_unforced sw apaStyle i part hi hpre hk hac hic,
      casedHyphenPart_forced sw apaStyle i part hi rfl hk hac hic⟩

theorem claim_C2_witness :
    titlecaseWord ("non-self-report".toList) false apaStopwords apaStyle =
      titlecaseHyphenated ("non-self-report".toList) true apaStopwords apaStyle ∧
    casedHyphenPart false apaStopwords apaStyle 1 ("self".toList) = ("self".toList) ∧
    casedHyphenPart true apaStopwords apaStyle 1 ("self".toList) = ("Self".toList) := by
  refine ⟨?_, ?_, ?_⟩
  · have h := claim_C2_amended.1 ("non-self-report".toList) false apaStopwords
      (by decide) (by decide) (by decide)
    rw [h]
    decide
  · have h := claim_C2_amended.2 apaStopwords 1 ("self".toList)
      (by decide) (by decide) (by decide) (by decide) (by decide)
    rw [h.1]
    decide
  · have h := claim_C2_amended.2 apaStopwords 1 ("self".toList)
      (by decide) (by decide) (by decide) (by decide) (by decide)
    rw [h.2]
    decide

/-- C3: the output of `suggest_title_case` differs from the input only in
letter casing: lower-casing output and input yields identical strings, so
character identity, order and count are preserved at every position — no
character is added, removed or replaced by anything but its case variant,
inside or outside protected spans.  This is stronger than the claim, which
only requires it after collapsing whitespace runs (the caser in fact
preserves whitespace verbatim). -/
theorem claim_C3_case_invariance :
    ∀ (t : Str) (sw : Option (List Str)) (sn : Option Str),
      lowerStr (suggestTitleCase t sw sn) = lowerStr t ∧
      (suggestTitleCase t sw sn).length = t.length := by
  intro t sw sn
  refine ⟨lowerStr_suggestTitleCase t sw sn, ?_⟩
  have h := congrArg List.length (lowerStr_suggestTitleCase t sw sn)
  rwa [lowerStr_length, lowerStr_length] at h

/-- C4: every brace-protected span of the input appears byte-identical, and
in the original relative order, in the output: the output is exactly an
interleaving of the braced segments with gap strings. -/
theorem claim_C4_protected_spans :
    ∀ (t : Str) (sw : Option (List Str)) (sn : Option Str),
      ∃ gaps : List Str,
        gaps.length = (bracedSegs t).length + 1 ∧
        suggestTitleCase t sw sn = interleaveStrs gaps (bracedSegs t) := by
  intro t sw sn
  exact processSegs_interleave _ _ _ (scanSegs t) ⟨0, []⟩

/-- C8: `suggest_title_case` is total (it is a Lean function) and never
raises: the empty title yields the empty string; a title without letters —
in particular one with no recognizable words — is returned entirely
unchanged; and a title without any closing brace is scanned as one ordinary
text segment, i.e. unmatched braces are treated as literal characters. -/
theorem claim_C8_total :
    suggestTitleCaseDefault [] = [] ∧
    (∀ (t : Str) (sw : Option (List Str)) (sn : Option Str),
      t.any isLetterCh = false → suggestTitleCase t sw sn = t) ∧
    (∀ t : Str, '}' ∉ t → scanSegs t = if t.isEmpty then [] else [(false, t)]) := by
  refine ⟨rfl, ?_, ?_⟩
  · intro t sw sn h
    have hlt : lowerStr t = t :=
      lowerStr_of_no_letter (fun c hc => by simpa using (List.any_eq_false.mp h) c hc)
    have hls := lowerStr_suggestTitleCase t sw sn
    have hnl : ∀ c ∈ lowerStr (suggestTitleCase t sw sn), isLetterCh c = false := by
      rw [hls, hlt]
      intro c hc
      simpa using (List.any_eq_false.mp h) c hc
    have heq := eq_lowerStr_of_no_letter hnl
    rw [heq, hls, hlt]
  · intro t h
    exact scanSegsF_no_rbrace t.length t (le_refl _) h

theorem claim_C8_witness :
    suggestTitleCase ("{12} 3!?".toList) none (some ("apa".toList)) = ("{12} 3!?".toList) ∧
    scanSegs ("ab\x7bcd".toList) = [(false, "ab\x7bcd".toList)] :=
  ⟨claim_C8_total.2.1 ("{12} 3!?".toList) none (some ("apa".toList)) (by decide),
   (claim_C8_total.2.2 ("ab\x7bcd".toList) (by decide)).trans (by decide)⟩

/-- C5: `suggest_title_case` is idempotent — for every title, stopword
argument and style name, applying the caser to its own output (with the same
stopwords and style) returns that output unchanged. -/
theorem claim_C5_idempotent (t : Str) (sw : Option (List Str)) (sn : Option Str) :
    suggestTitleCase (suggestTitleCase t sw sn) sw sn = suggestTitleCase t sw sn := by
  cases sw with
  | none =>
    rw [suggestTitleCase_none t sn, suggestTitleCase_none _ sn]
    exact suggestCore_idem apaStyle.stopwords t
  | some s =>
    rw [suggestTitleCase_some t s sn, suggestTitleCase_some _ s sn]
    exact suggestCore_idem _ t

end TitleCases
